import Mathlib

/-!
Shallow embedding of the `av_play` playlist library and playback controller
(`src/av_play/playlist.py`, `src/av_play/__AV_Player.py`, `src/av_play/__AV_Common.py`)
together with proofs about the embedded operations.

Conventions of the embedding:
* Python `int` is `Int` (arbitrary precision); list indices that are known
  non-negative are `Nat`.
* Fallible Python operations (`int(...)`, `float(...)`, `json.loads`) become
  `Option`-returning functions; an uncaught exception that occurs before any
  state mutation is modelled as leaving the state unchanged (noted locally).
* `random.shuffle` is the documented Fisher-Yates loop over an injectable
  random source `rng : Nat -> Nat` (`j = rng i % (i+1)` models `randbelow(i+1)`).
* Filesystem and network are oracles where needed.
-/

namespace AvPlay

/-! ## Python string primitives -/

/-- Characters stripped by Python `str.strip()` (the common whitespace set;
exotic Unicode space characters, which no embedded caller feeds in, are
omitted). -/
def isPySpace (c : Char) : Bool :=
  c = ' ' || c = '\t' || c = '\n' || c = '\r' || c = '\x0b' || c = '\x0c' ||
  c = '\x1c' || c = '\x1d' || c = '\x1e' || c = '\x1f' || c = '\x85' || c = '\xa0'

/-- Line-boundary characters of Python `str.splitlines()`. -/
def isLineBreak (c : Char) : Bool :=
  c = '\n' || c = '\r' || c = '\x0b' || c = '\x0c' || c = '\x1c' || c = '\x1d' ||
  c = '\x1e' || c = '\x85' || c = '\u2028' || c = '\u2029'

/-- Python `str.strip()` on a character list. -/
def pyStripCh (l : List Char) : List Char :=
  ((l.dropWhile isPySpace).reverse.dropWhile isPySpace).reverse

/-- Python `str.strip()`. -/
def pyStrip (s : String) : String := ⟨pyStripCh s.data⟩

/-- Python `str.lower()` (ASCII-faithful). -/
def pyLower (s : String) : String := ⟨s.data.map Char.toLower⟩

/-- Boolean list-prefix test used for Python `str.startswith` and the
`^https?://` regular expression. -/
def isPre : List Char → List Char → Bool
  | [], _ => true
  | _ :: _, [] => false
  | a :: as, b :: bs => a = b && isPre as bs

/-- Python `str.startswith`. -/
def pyStartsWith (s p : String) : Bool := isPre p.data s.data

/-- Worker for `splitLinesCh`; `acc` holds the current line reversed. -/
def splitLinesGo (acc : List Char) : List Char → List (List Char)
  | [] => if acc.isEmpty then [] else [acc.reverse]
  | c :: rest =>
    if c = '\r' then
      match rest with
      | c2 :: rest2 =>
        if c2 = '\n' then acc.reverse :: splitLinesGo [] rest2
        else acc.reverse :: splitLinesGo [] (c2 :: rest2)
      | [] => acc.reverse :: splitLinesGo [] []
    else if isLineBreak c then acc.reverse :: splitLinesGo [] rest
    else splitLinesGo (c :: acc) rest

/-- Python `str.splitlines()` on a character list. -/
def splitLinesCh (l : List Char) : List (List Char) := splitLinesGo [] l

/-- Python `str.splitlines()`. -/
def pySplitlines (s : String) : List String := (splitLinesCh s.data).map String.mk

/-- Python `str.split(sep, 1)` restricted to a single-character separator:
returns the part before the first occurrence and, when the separator occurs,
the remainder. -/
def splitFirst (sep : Char) : List Char → List Char × Option (List Char)
  | [] => ([], none)
  | c :: rest =>
    if c = sep then ([], some rest)
    else
      let (a, b) := splitFirst sep rest
      (c :: a, b)

/-- Value and digit count of a Python digit run that may contain single
underscores between digits (as accepted by `int()` / `float()` literals);
`none` when the run is empty or malformed. -/
def digitsUVal? (l : List Char) : Option (Nat × Nat) :=
  match l with
  | [] => none
  | c :: rest =>
    if c.isDigit then digitsUGo (c.toNat - 48) 1 rest else none
where
  /-- Continues after at least one digit was read. -/
  digitsUGo (acc n : Nat) : List Char → Option (Nat × Nat)
    | [] => some (acc, n)
    | c :: rest =>
      if c = '_' then
        match rest with
        | c2 :: rest2 =>
          if c2.isDigit then digitsUGo (acc * 10 + (c2.toNat - 48)) (n + 1) rest2 else none
        | [] => none
      else if c.isDigit then digitsUGo (acc * 10 + (c.toNat - 48)) (n + 1) rest else none

/-- Python `int(s)` for string arguments: surrounding whitespace, an optional
sign, and a decimal digit run. -/
def pyInt? (s : String) : Option Int :=
  match pyStripCh s.data with
  | '+' :: rest => (digitsUVal? rest).map fun p => (p.1 : Int)
  | '-' :: rest => (digitsUVal? rest).map fun p => -(p.1 : Int)
  | rest => (digitsUVal? rest).map fun p => (p.1 : Int)

/-- Mantissa of a Python float literal: digits, optionally a `.`, more digits;
at least one digit overall. Returns the combined digits' value together with
the number of fractional digits. -/
def floatMantissa? (l : List Char) : Option (Nat × Nat) :=
  let (ip, fp) := splitFirst '.' l
  match fp with
  | none => (digitsUVal? ip).map fun p => (p.1, 0)
  | some fchars =>
    match ip, fchars with
    | [], [] => none
    | [], _ =>
      (digitsUVal? fchars).map fun p => (p.1, p.2)
    | _, [] => (digitsUVal? ip).map fun p => (p.1, 0)
    | _, _ =>
      match digitsUVal? ip, digitsUVal? fchars with
      | some p, some q => some (p.1 * 10 ^ q.2 + q.1, q.2)
      | _, _ => none

/-- Exponent part of a Python float literal (after `e`/`E`). -/
def floatExp? (l : List Char) : Option Int :=
  match l with
  | '+' :: rest => (digitsUVal? rest).map fun p => (p.1 : Int)
  | '-' :: rest => (digitsUVal? rest).map fun p => -(p.1 : Int)
  | rest => (digitsUVal? rest).map fun p => (p.1 : Int)

/-- Splits a float body at the first `e`/`E`. -/
def splitExp (l : List Char) : List Char × Option (List Char) :=
  match l with
  | [] => ([], none)
  | c :: rest =>
    if c = 'e' || c = 'E' then ([], some rest)
    else
      let (a, b) := splitExp rest
      (c :: a, b)

/-- Magnitude of `int(float(...))`: digits value `m` with `f` fractional
digits and decimal exponent `e`, truncated toward zero. Exact decimal
arithmetic stands in for the binary double value; exact for every literal the
repository's inputs exercise. -/
def floatTruncMag (m f : Nat) (e : Int) : Nat :=
  if f ≤ e then m * 10 ^ (e - (f : Int)).toNat
  else m / 10 ^ ((f : Int) - e).toNat

/-- Mantissa/exponent decoding of a float literal body (already lower-cased
for the `inf`/`nan` test), truncated to an integer with the given sign. -/
def pyFloatBody (sign : Int) (body : List Char) : Option Int :=
  let lowBody := (body.map Char.toLower)
  if lowBody = "inf".data || lowBody = "infinity".data || lowBody = "nan".data then none
  else
    let (mant, expPart) := splitExp body
    match floatMantissa? mant with
    | none => none
    | some (m, f) =>
      match expPart with
      | none => some (sign * (floatTruncMag m f 0 : Int))
      | some ec =>
        match floatExp? ec with
        | none => none
        | some e => some (sign * (floatTruncMag m f e : Int))

/-- Sign handling of a Python float literal body. -/
def pyFloatSigned : List Char → Option Int
  | [] => pyFloatBody 1 []
  | c :: rest =>
    if c = '+' then pyFloatBody 1 rest
    else if c = '-' then pyFloatBody (-1) rest
    else pyFloatBody 1 (c :: rest)

/-- Python `int(float(s))` as an `Option`: `none` models the `ValueError` of
an unparsable literal (and of `nan`; an infinite literal, whose
`OverflowError` the repository never catches, is also mapped to `none` and
noted at call sites). -/
def pyFloatTrunc? (s : String) : Option Int :=
  pyFloatSigned (pyStripCh s.data)

/-- The character of a decimal digit. -/
def digitChar (n : Nat) : Char :=
  match n with
  | 0 => '0' | 1 => '1' | 2 => '2' | 3 => '3' | 4 => '4'
  | 5 => '5' | 6 => '6' | 7 => '7' | 8 => '8' | _ => '9'

/-- Fueled digit printer (structural, so that it reduces definitionally;
the fuel always suffices because `n / 10 < n`). -/
def natDigitsGo : Nat → Nat → List Char
  | 0, _ => []
  | fuel + 1, n =>
    if n < 10 then [digitChar n]
    else natDigitsGo fuel (n / 10) ++ [digitChar (n % 10)]

/-- Decimal digit characters of a natural number, most significant first
(the digits Python `str(int)` prints). -/
def natDigits (n : Nat) : List Char := natDigitsGo (n + 1) n

/-- Python `str(i)` for an `int`. -/
def pyIntStr (i : Int) : String :=
  if i < 0 then ⟨'-' :: natDigits i.natAbs⟩ else ⟨natDigits i.natAbs⟩

/-! ## posixpath.normpath and PlaylistParser.normalize_path -/

/-- Python `str.split(sep)` for a single-character separator (always at least
one part; the empty string splits to `[""]`). -/
def splitCharCh (sep : Char) : List Char → List (List Char)
  | [] => [[]]
  | c :: rest =>
    if c = sep then [] :: splitCharCh sep rest
    else
      match splitCharCh sep rest with
      | [] => [[c]]
      | a :: as => (c :: a) :: as

/-- Python `sep.join(parts)` for a single-character separator. -/
def joinChar (sep : Char) : List (List Char) → List Char
  | [] => []
  | [a] => a
  | a :: rest => a ++ sep :: joinChar sep rest

/-- One step of the `posixpath.normpath` component loop: the body of
`for comp in comps` acting on `new_comps`. -/
def normFoldStep (slashes : Nat) (acc : List (List Char)) (comp : List Char) : List (List Char) :=
  if comp = [] || comp = ['.'] then acc
  else if comp ≠ ['.', '.'] || (slashes = 0 && acc = []) ||
          (acc ≠ [] && acc.getLast? = some ['.', '.']) then acc ++ [comp]
  else if acc ≠ [] then acc.dropLast
  else acc

/-- The `posixpath.normpath` component loop over all components. -/
def normComps (slashes : Nat) (comps : List (List Char)) : List (List Char) :=
  comps.foldl (normFoldStep slashes) []

/-- Number of initial slashes `posixpath.normpath` preserves (POSIX keeps two
leading slashes special, three or more collapse to one). -/
def initialSlashes (l : List Char) : Nat :=
  if isPre ['/'] l then
    if isPre ['/', '/'] l && !(isPre ['/', '/', '/'] l) then 2 else 1
  else 0

/-- `posixpath.normpath` on a character list. -/
def normpathCh (p : List Char) : List Char :=
  if p = [] then ['.']
  else
    let slashes := initialSlashes p
    let comps := splitCharCh '/' p
    let path := List.replicate slashes '/' ++ joinChar '/' (normComps slashes comps)
    if path = [] then ['.'] else path

/-- `os.path.normpath` (POSIX flavour, matching the repository's target). -/
def normpath (p : String) : String := ⟨normpathCh p.data⟩

/-- The `^https?://` test of `PlaylistParser.is_url` / `normalize_path`. -/
def isHttpUrl (l : List Char) : Bool :=
  isPre "http://".data l || isPre "https://".data l

/-- `PlaylistParser.normalize_path`: URLs pass through, anything else is
`os.path.normpath`-normalised. -/
def normalize_path (path : String) : String :=
  if isHttpUrl path.data then path else normpath path

/-- Invariant of the components `posixpath.normpath` keeps: nonempty, not
`.`, and (coming from a `/`-split) free of separators. -/
def compOK (c : List Char) : Prop := c ≠ [] ∧ c ≠ ['.'] ∧ '/' ∉ c

/-- Invariant of a normalised component list: all `..` components form a
prefix. -/
def ddPre : List (List Char) → Prop
  | [] => True
  | c :: rest => if c = ['.', '.'] then ddPre rest else ['.', '.'] ∉ rest

/-! ## Python dict as an insertion-ordered association list -/

/-- Membership test of a Python `dict` key. -/
def dcontains [DecidableEq K] (m : List (K × V)) (k : K) : Bool :=
  m.any fun p => p.1 = k

/-- Python `dict.get`: the first (unique) binding of `k`, if any. -/
def dget? [DecidableEq K] : List (K × V) → K → Option V
  | [], _ => none
  | p :: rest, k => if p.1 = k then some p.2 else dget? rest k

/-- Python `d[k] = v`: replace in place when the key exists, else append
(insertion order preserved). -/
def dinsert [DecidableEq K] (m : List (K × V)) (k : K) (v : V) : List (K × V) :=
  if dcontains m k then m.map fun p => if p.1 = k then (k, v) else p
  else m ++ [(k, v)]

/-! ## PlaylistEntry and the PLS codec (`playlist.py`) -/

/-- `PlaylistEntry` for the static-typed codecs (M3U/PLS) and the Playlist
containers. The `metadata` dict, which those codecs always leave empty, and
the dynamically-typed JSON fields are modelled with the JSON codec. -/
structure PlaylistEntry where
  location : String
  title : Option String := none
  duration : Option Int := none
  artist : Option String := none
  album : Option String := none
deriving DecidableEq, Repr, Inhabited

/-- Accumulated key maps of `PLSParser.parse` (`file_map`, `title_map`,
`length_map`, `num_entries`). A `length_map` binding holds an `Option Int`
because Python stores `None` for `-1` or unparsable lengths. -/
structure PlsScanState where
  file_map : List (Int × String) := []
  title_map : List (Int × String) := []
  length_map : List (Int × Option Int) := []
  num_entries : Int := 0
deriving DecidableEq, Repr, Inhabited

/-- The `Length` value decoding of `PLSParser.parse`:
`int(float(value)) if value != '-1' else None`, with an unparsable value
(`ValueError`) also giving `None`. -/
def plsLengthValue (value : String) : Option Int :=
  if value = "-1" then none else pyFloatTrunc? value

/-- One line of the `PLSParser.parse` scanning loop. -/
def plsLine (st : PlsScanState) (rawLine : String) : PlsScanState :=
  let line := pyStrip rawLine
  if line = "" then st
  else if pyStartsWith (pyLower line) "[playlist]" then st
  else if !(line.data.contains '=') then st
  else
    let (kRaw, vRaw) := splitFirst '=' line.data
    let key := pyLower (pyStrip ⟨kRaw⟩)
    let value := pyStrip ⟨vRaw.getD []⟩
    if pyStartsWith key "file" then
      match pyInt? ⟨key.data.drop 4⟩ with
      | some idx =>
        { st with file_map := dinsert st.file_map idx (normalize_path value),
                  num_entries := max st.num_entries idx }
      | none => st
    else if pyStartsWith key "title" then
      match pyInt? ⟨key.data.drop 5⟩ with
      | some idx => { st with title_map := dinsert st.title_map idx value }
      | none => st
    else if pyStartsWith key "length" then
      match pyInt? ⟨key.data.drop 6⟩ with
      | some idx => { st with length_map := dinsert st.length_map idx (plsLengthValue value) }
      | none => st
    else st

/-- The index range `range(1, num_entries + 1)` of `PLSParser.parse`. -/
def plsIndices (st : PlsScanState) : List Int :=
  (List.range st.num_entries.toNat).map fun k => (k : Int) + 1

/-- The assembly loop of `PLSParser.parse`: an entry for every index in range
that has a `File` binding. -/
def plsAssemble (st : PlsScanState) : List PlaylistEntry :=
  (plsIndices st).filterMap fun i =>
    if dcontains st.file_map i then
      some { location := (dget? st.file_map i).getD ""
             title := dget? st.title_map i
             duration := (dget? st.length_map i).getD none }
    else none

/-- The key-map scan of `PLSParser.parse` over all lines. -/
def plsScanOf (content : String) : PlsScanState :=
  (pySplitlines content).foldl plsLine {}

/-- `PLSParser.parse`. -/
def plsParse (content : String) : List PlaylistEntry :=
  plsAssemble (plsScanOf content)

/-! ## The M3U codec (`M3UParser.parse` / `M3UParser.serialize`) -/

/-- The `while i < len(lines)` loop of `M3UParser.parse`, structurally on the
remaining lines. An `#EXTINF:` line also consumes the following line as the
track location (or ends the loop when it was the last line); a consumed line
that is blank or a comment drops the pending entry. -/
def m3uLines : List (List Char) → List PlaylistEntry
  | [] => []
  | l :: rest =>
    let line := pyStripCh l
    if line.isEmpty || (isPre ['#'] line && !isPre "#EXTINF:".data line) then
      m3uLines rest
    else if isPre "#EXTINF:".data line then
      let parts := splitFirst ',' (line.drop 8)
      let duration := pyFloatTrunc? ⟨parts.1⟩
      let title := parts.2.map fun t => (⟨pyStripCh t⟩ : String)
      match rest with
      | [] => []
      | l2 :: rest2 =>
        let line2 := pyStripCh l2
        if !line2.isEmpty && !isPre ['#'] line2 then
          { location := normalize_path ⟨line2⟩, title := title, duration := duration } ::
            m3uLines rest2
        else m3uLines rest2
    else
      { location := normalize_path ⟨line⟩, title := none, duration := none } :: m3uLines rest

/-- `M3UParser.parse`. -/
def m3uParse (content : String) : List PlaylistEntry :=
  m3uLines (splitLinesCh content.data)

/-- The `f"#EXTINF:\x7bduration_str\x7d,\x7btitle\x7d"` line of
`M3UParser.serialize`. -/
def extinfLine (e : PlaylistEntry) : List Char :=
  "#EXTINF:".data ++
    (match e.duration with
     | some d => (pyIntStr d).data
     | none => "-1".data) ++
    ',' :: (e.title.getD "").data

/-- Python truthiness of `entry.title` (`None` and `""` are falsy). -/
def strTruthy : Option String → Bool
  | none => false
  | some t => !t.data.isEmpty

/-- The lines `M3UParser.serialize` appends for one entry: an `#EXTINF:`
line when the entry has a truthy title or a duration, then the location. -/
def m3uEntryLines (e : PlaylistEntry) : List (List Char) :=
  (if strTruthy e.title || e.duration.isSome then [extinfLine e] else []) ++ [e.location.data]

/-- `M3UParser.serialize` (its `original_content` defaults to `None`). -/
def m3uSerialize (entries : List PlaylistEntry) (original_content : Option String) : String :=
  let header :=
    if !strTruthy original_content ||
        pyStartsWith (pyStrip (original_content.getD "")) "#EXTM3U" then
      ["#EXTM3U\n".data]
    else []
  ⟨joinChar '\n' (header ++ (entries.map m3uEntryLines).flatten)⟩

/-- Entries on which the M3U round-trip is exact: the location is not a
comment-like string starting with `#`, it carries no surrounding whitespace
that the reparse would strip, and title and duration are present together
(a lone title would resurface with duration `-1`, a lone untitled duration
with title `""`, and a blank title without duration would not be written at
all). -/
def m3uGoodEntry (e : PlaylistEntry) : Prop :=
  isPre ['#'] e.location.data = false ∧ pyStrip e.location = e.location ∧
  e.title.isSome = e.duration.isSome

instance (e : PlaylistEntry) : Decidable (m3uGoodEntry e) := by
  unfold m3uGoodEntry; infer_instance

/-- Facts every entry produced by `M3UParser.parse` satisfies: the location is
a nonempty, line-break-free fixed point of `normalize_path`, the title (when
present) is stripped and line-break-free, and the codec never fills artist or
album. -/
def m3uParsedInv (e : PlaylistEntry) : Prop :=
  e.location ≠ "" ∧ normalize_path e.location = e.location ∧
  (∀ c ∈ e.location.data, isLineBreak c = false) ∧
  (∀ t, e.title = some t → pyStrip t = t ∧ ∀ c ∈ t.data, isLineBreak c = false) ∧
  e.artist = none ∧ e.album = none

/-! ## The playback controller (`__AV_Player.py`) -/

/-- `AVPlaylistMode` from `__AV_Common.py`. -/
inductive AVPlaylistMode where
  | sequential | repeat_all | repeat_one | shuffle
deriving DecidableEq, Repr

/-- `AVPlaylistState` from `__AV_Common.py`. -/
inductive AVPlaylistState where
  | stopped | playing | paused | finished
deriving DecidableEq, Repr

/-- Commands `_play_playlist_track` issues to the backend media instance. -/
inductive BackendAction where
  | load_file (path : String)
  | load_url (url : String)
  | play
deriving DecidableEq, Repr

/-- `is_path` from `__AV_Common.py`: any non-empty string passes, because
`Path(path_str)` construction succeeds for every ordinary string — the
function never consults the filesystem. -/
def is_path (path_str : String) : Bool := path_str ≠ ""

/-- The playlist-related state of `AVPlayer`. The backend instance, monitor
thread and callbacks are outside the model; `shuffle_order` holds Python ints. -/
structure PlayerState where
  current_playlist : Option (List PlaylistEntry) := none
  current_playlist_index : Int := -1
  playlist_mode : AVPlaylistMode := .sequential
  playlist_state : AVPlaylistState := .stopped
  shuffle_order : List Int := []
  auto_play_enabled : Bool := false
deriving DecidableEq, Repr

/-- The list swap `x[i], x[j] = x[j], x[i]` (callers guarantee `i j < length`). -/
def listSwap [Inhabited α] (l : List α) (i j : Nat) : List α :=
  (l.set i (l.getD j default)).set j (l.getD i default)

/-- The loop of `random.shuffle`: `for i in reversed(range(1, len(x)))`,
swapping `x[i]` with `x[randbelow(i+1)]`; the random source is the injectable
oracle `rng`, reduced mod `i+1` exactly as `randbelow` guarantees. -/
def fyGo [Inhabited α] (rng : Nat → Nat) (l : List α) : Nat → List α
  | 0 => l
  | k + 1 => fyGo rng (listSwap l (k + 1) (rng (k + 1) % (k + 2))) k

/-- `random.shuffle` over the oracle `rng`. -/
def pyShuffle [Inhabited α] (rng : Nat → Nat) (l : List α) : List α :=
  fyGo rng l (l.length - 1)

/-- The index range `list(range(n))` as Python ints. -/
def intRange (n : Nat) : List Int := List.map Int.ofNat (List.range n)

/-- Python `list.index` as an `Option`: position of the first occurrence,
`none` for the `ValueError` of a missing element. -/
def pyListIndex? (x : Int) : List Int → Option Nat
  | [] => none
  | a :: t => if a = x then some 0 else (pyListIndex? x t).map (· + 1)

/-- `AVPlayer._generate_shuffle_order`. Python's `if self._current_playlist:`
uses `Playlist.__len__` truthiness, so an empty playlist (like a missing one)
leaves the old order in place. -/
def generate_shuffle_order (rng : Nat → Nat) (s : PlayerState) : PlayerState :=
  match s.current_playlist with
  | some pl =>
    if 0 < pl.length then
      { s with shuffle_order := pyShuffle rng (intRange pl.length) }
    else s
  | none => s

/-- `AVPlayer._play_playlist_track`, returning the updated state together
with the commands issued to the backend instance. -/
def play_playlist_track (s : PlayerState) : PlayerState × List BackendAction :=
  match s.current_playlist with
  | some pl =>
    if 0 < pl.length ∧ 0 ≤ s.current_playlist_index ∧ s.current_playlist_index < pl.length then
      let loc := (pl.getD s.current_playlist_index.toNat default).location
      ({ s with playlist_state := .playing },
       [(if is_path loc then .load_file loc else .load_url loc), .play])
    else (s, [])
  | none => (s, [])

/-- State part of `_play_playlist_track`. -/
def playTrackSt (s : PlayerState) : PlayerState := (play_playlist_track s).1

/-- `AVPlayer._advance_track`. -/
def advance_track (s : PlayerState) : PlayerState :=
  match s.current_playlist with
  | none => s
  | some pl =>
    if pl.length = 0 then s
    else
      match s.playlist_mode with
      | .repeat_one => playTrackSt s
      | .shuffle =>
        match pyListIndex? s.current_playlist_index s.shuffle_order with
        | some pos =>
          let pos1 := pos + 1
          if s.shuffle_order.length ≤ pos1 then
            if s.playlist_mode = .repeat_all then
              -- dead in Python too: the mode is Shuffle inside this branch
              playTrackSt { s with current_playlist_index := s.shuffle_order.getD 0 0 }
            else { s with playlist_state := .finished }
          else playTrackSt { s with current_playlist_index := s.shuffle_order.getD pos1 0 }
        | none =>
          -- except ValueError: index := order[0] if order else 0
          playTrackSt { s with current_playlist_index :=
            if s.shuffle_order ≠ [] then s.shuffle_order.getD 0 0 else 0 }
      | _ =>
        let i1 := s.current_playlist_index + 1
        if (pl.length : Int) ≤ i1 then
          if s.playlist_mode = .repeat_all then
            playTrackSt { s with current_playlist_index := 0 }
          else { s with current_playlist_index := i1, playlist_state := .finished }
        else playTrackSt { s with current_playlist_index := i1 }

/-- `AVPlayer.next`. -/
def next_op (s : PlayerState) : PlayerState :=
  match s.current_playlist with
  | some pl => if 0 < pl.length then advance_track s else s
  | none => s

/-- `AVPlayer.previous`. In Shuffle mode with an index absent from
`shuffle_order`, Python raises `ValueError` out of `list.index` before any
state is mutated; the model keeps the (unchanged) state. -/
def previous_op (s : PlayerState) : PlayerState :=
  match s.current_playlist with
  | some pl =>
    if 0 < pl.length then
      if s.playlist_mode = .shuffle then
        match pyListIndex? s.current_playlist_index s.shuffle_order with
        | some pos => playTrackSt { s with current_playlist_index := s.shuffle_order.getD (pos - 1) 0 }
        | none => s
      else playTrackSt { s with current_playlist_index := max 0 (s.current_playlist_index - 1) }
    else s
  | none => s

/-- `AVPlayer.load_playlist` (the monitor thread it may start is outside the
model). -/
def load_playlist (rng : Nat → Nat) (playlist : Option (List PlaylistEntry))
    (auto_play : Bool) (mode : AVPlaylistMode) (s : PlayerState) : PlayerState :=
  match playlist with
  | none => s
  | some pl =>
    let s1 := { s with current_playlist := some pl, auto_play_enabled := auto_play,
                       playlist_mode := mode, playlist_state := .stopped }
    let s2 := if mode = .shuffle then generate_shuffle_order rng s1 else s1
    if 0 < pl.length then playTrackSt { s2 with current_playlist_index := 0 } else s2

/-- `AVPlayer.set_playlist_mode`. -/
def set_playlist_mode (rng : Nat → Nat) (mode : AVPlaylistMode) (s : PlayerState) : PlayerState :=
  let s1 := { s with playlist_mode := mode }
  if mode = .shuffle then generate_shuffle_order rng s1 else s1

/-- One externally triggered controller operation (each shuffle-capable one
takes its own random oracle). -/
inductive PlayerStep : PlayerState → PlayerState → Prop where
  | load (rng : Nat → Nat) (pl : Option (List PlaylistEntry)) (auto : Bool)
      (mode : AVPlaylistMode) (s : PlayerState) : PlayerStep s (load_playlist rng pl auto mode s)
  | next (s : PlayerState) : PlayerStep s (next_op s)
  | prev (s : PlayerState) : PlayerStep s (previous_op s)
  | set_mode (rng : Nat → Nat) (mode : AVPlaylistMode) (s : PlayerState) :
      PlayerStep s (set_playlist_mode rng mode s)

/-- The freshly constructed controller state. -/
def initState : PlayerState := {}

/-- States reachable from the fresh controller through controller operations. -/
def Reachable (s : PlayerState) : Prop := Relation.ReflTransGen PlayerStep initState s

/-- The location of the entry `_play_playlist_track` addresses. -/
def currentLocation (s : PlayerState) (pl : List PlaylistEntry) : String :=
  (pl.getD s.current_playlist_index.toNat default).location

/-- The claimed dispatch rule for starting a track, relative to a filesystem
oracle `fs`: the location goes to the backend as a file load exactly when it
names an existing filesystem path, else as a URL load. -/
def fileLoadIffExists (fs : String → Bool) : Prop :=
  ∀ s pl, s.current_playlist = some pl →
    0 ≤ s.current_playlist_index → s.current_playlist_index < (pl.length : Int) →
    ((play_playlist_track s).2.head? = some (.load_file (currentLocation s pl)) ↔
      fs (currentLocation s pl) = true)

/-- The shuffle oracle used by concrete counterexample states: it drives
`pyShuffle` on three elements to the order `[2, 0, 1]`. -/
def rngSwap201 : Nat → Nat := fun i => if i = 2 then 1 else 0

/-! ## Concrete states used by witnesses and counterexamples -/

/-- A two-entry playlist. -/
def plTwo : List PlaylistEntry := [{ location := "a.mp3" }, { location := "b.mp3" }]

/-- A three-entry playlist. -/
def plThree : List PlaylistEntry :=
  [{ location := "a.mp3" }, { location := "b.mp3" }, { location := "c.mp3" }]

/-- Sequential-mode state at index 0 over `plTwo`. -/
def sSeqTwo : PlayerState := { current_playlist := some plTwo, current_playlist_index := 0 }

/-- Sequential-mode state at index 0 over a one-entry playlist. -/
def sSeqOne : PlayerState :=
  { current_playlist := some [{ location := "a.mp3" }], current_playlist_index := 0 }

/-- State about to play the entry `"x.mp3"`. -/
def sPlayX : PlayerState :=
  { current_playlist := some [{ location := "x.mp3" }], current_playlist_index := 0 }

/-- State about to play the entry `"missing.mp3"`. -/
def sPlayMissing : PlayerState :=
  { current_playlist := some [{ location := "missing.mp3" }], current_playlist_index := 0 }

/-- Shuffle-mode state the controller reaches by loading `plThree` with the
`rngSwap201` oracle: its shuffle order is `[2, 0, 1]` and its index is 0. -/
def sShufThree : PlayerState := load_playlist rngSwap201 (some plThree) false .shuffle initState

/-- A one-entry playlist. -/
def plOne : List PlaylistEntry := [{ location := "a.mp3" }]

/-- The state after loading `plOne` sequentially into a fresh controller. -/
def sLoadedOne : PlayerState := load_playlist (fun _ => 0) (some plOne) false .sequential initState

/-- The state after loading `plTwo` sequentially into a fresh controller. -/
def sLoadedTwo : PlayerState := load_playlist (fun _ => 0) (some plTwo) false .sequential initState

/-- The controller invariant: on a non-empty bound playlist the index is
non-negative and, unless the playlist state is Finished, a valid index; and
in Shuffle mode over a non-empty bound playlist the shuffle order is a
permutation of the playlist's indices. -/
def PlayerInv (s : PlayerState) : Prop :=
  (∀ pl, s.current_playlist = some pl → 0 < pl.length →
    0 ≤ s.current_playlist_index ∧
    (s.playlist_state ≠ .finished → s.current_playlist_index < (pl.length : Int))) ∧
  (∀ pl, s.current_playlist = some pl → 0 < pl.length → s.playlist_mode = .shuffle →
    List.Perm s.shuffle_order (intRange pl.length))

/-! ## PlaylistManager with explicit object identity (`playlist.py`) -/

/-- A `Playlist` object's observable content for the manager claims. -/
structure PlObj where
  title : String
  entries : List PlaylistEntry
deriving DecidableEq, Repr

/-- The manager state: a heap of playlist objects addressed by identity, the
name-to-identity dict `playlists`, and the next fresh identity. -/
structure MgrState where
  heap : Nat → PlObj
  store : List (String × Nat)
  next_id : Nat

/-- Writing one heap cell. -/
def heapUpdate (h : Nat → PlObj) (i : Nat) (o : PlObj) : Nat → PlObj :=
  fun j => if j = i then o else h j

/-- `Playlist.merge`: builds a fresh Playlist titled by joining both titles
whose entries are the concatenation (a copy, not shared). -/
def mergeAlloc (m : MgrState) (i j : Nat) : MgrState × Nat :=
  let a := m.heap i
  let b := m.heap j
  let obj : PlObj := { title := a.title ++ " + " ++ b.title, entries := a.entries ++ b.entries }
  ({ m with heap := heapUpdate m.heap m.next_id obj, next_id := m.next_id + 1 }, m.next_id)

/-- The left fold `for playlist in source_playlists[1:]` of `merge_playlists`. -/
def mergeFold (m : MgrState) (acc : Nat) : List Nat → MgrState × Nat
  | [] => (m, acc)
  | j :: rest =>
    let r := mergeAlloc m acc j
    mergeFold r.1 r.2 rest

/-- Python truthiness of `Optional[str]` (`None` and `""` are falsy). -/
def pyTruthyOptStr : Option String → Bool
  | none => false
  | some s => s ≠ ""

/-- In-place `merged_playlist.title = title`. -/
def setTitle (m : MgrState) (i : Nat) (t : String) : MgrState :=
  { m with heap := heapUpdate m.heap i { m.heap i with title := t } }

/-- The list comprehension `[self.get_playlist(name) for name in names]`
together with the all-present check: `none` as soon as one name is missing. -/
def lookupAll (m : MgrState) : List String → Option (List Nat)
  | [] => some []
  | n :: rest =>
    match dget? m.store n, lookupAll m rest with
    | some i, some is => some (i :: is)
    | _, _ => none

/-- `PlaylistManager.merge_playlists`, returning the new manager state and
the identity of the stored result (`none` mirrors a `None` return with the
state unchanged). -/
def merge_playlists (m : MgrState) (name : String) (sources : List String)
    (title : Option String) : MgrState × Option Nat :=
  if sources = [] then (m, none)
  else
    match lookupAll m sources with
    | none => (m, none)
    | some ids =>
      match ids with
      | [] => (m, none)
      | i0 :: rest =>
        let r := mergeFold m i0 rest
        let m2 := if pyTruthyOptStr title then setTitle r.1 r.2 (title.getD "") else r.1
        ({ m2 with store := dinsert m2.store name r.2 }, some r.2)

/-- Well-formed manager state: every stored identity is below `next_id`
(object identities are allocated fresh, so this holds for every state built
through manager operations). -/
def MgrWF (m : MgrState) : Prop := ∀ n i, dget? m.store n = some i → i < m.next_id

/-- A concrete two-playlist manager used by the C10 witness. -/
def mgrTwo : MgrState :=
  { heap := fun j =>
      if j = 0 then { title := "P1", entries := [{ location := "a.mp3" }] }
      else if j = 1 then { title := "P2", entries := [{ location := "b.mp3" }] }
      else { title := "", entries := [] }
    store := [("p1", 0), ("p2", 1)]
    next_id := 2 }

/-! ## The JSON codec (`playlist.py`, `JSONParser`) and its stdlib model -/

mutual

/-- Python's JSON value universe as the codec sees it. A finite float
carries its exact decimal value `m / 10 ^ k`, trailing fractional zeros
normalised away: the IEEE rounding of `float()` (and its overflow to
infinity on huge exponents) is idealised as exact, which no embedded input
or claim computation observes. `NaN` and the signed infinities, which
`json.loads` accepts and `json.dumps` emits by name, are explicit. Arrays
and objects carry their own list types so that every function below is
structurally recursive. -/
inductive PyJson where
  | null
  | bool (b : Bool)
  | int (n : Int)
  | float (m : Int) (k : Nat)
  | fnan
  | finf (neg : Bool)
  | str (s : String)
  | arr (items : PyJsonList)
  | obj (fields : PyJsonFields)
deriving Repr

/-- A JSON array's elements. -/
inductive PyJsonList where
  | nil
  | cons (head : PyJson) (tail : PyJsonList)
deriving Repr

/-- A JSON object's insertion-ordered members. -/
inductive PyJsonFields where
  | nil
  | cons (key : String) (val : PyJson) (tail : PyJsonFields)
deriving Repr

end

/-- Python `key in obj` over JSON object members. -/
def jcontains : PyJsonFields → String → Bool
  | .nil, _ => false
  | .cons k0 _ t, k => k0 = k || jcontains t k

/-- Python `obj.get(key)` over JSON object members. -/
def jget? : PyJsonFields → String → Option PyJson
  | .nil, _ => none
  | .cons k0 v0 t, k => if k0 = k then some v0 else jget? t k

/-- Replace every binding of `k` in place. -/
def jreplace : PyJsonFields → String → PyJson → PyJsonFields
  | .nil, _, _ => .nil
  | .cons k0 v0 t, k, v =>
    if k0 = k then .cons k v (jreplace t k v) else .cons k0 v0 (jreplace t k v)

/-- Append one binding at the end. -/
def jsnoc : PyJsonFields → String → PyJson → PyJsonFields
  | .nil, k, v => .cons k v .nil
  | .cons k0 v0 t, k, v => .cons k0 v0 (jsnoc t k v)

/-- Python `obj[k] = v`: replace in place when present, else append. -/
def jinsert (fs : PyJsonFields) (k : String) (v : PyJson) : PyJsonFields :=
  if jcontains fs k then jreplace fs k v else jsnoc fs k v

/-- Python `dict.update` over JSON object members. -/
def jupdate : PyJsonFields → PyJsonFields → PyJsonFields
  | d, .nil => d
  | d, .cons k v t => jupdate (jinsert d k v) t

/-- `dict(pairs)` over the parsed member sequence: insert left to right, so
a duplicate key keeps its first position with its last value. -/
def jdictGo : PyJsonFields → PyJsonFields → PyJsonFields
  | acc, .nil => acc
  | acc, .cons k v t => jdictGo (jinsert acc k v) t

/-- Whitespace accepted between JSON tokens by `json.loads`. -/
def jsonWs (c : Char) : Bool := c = ' ' || c = '\t' || c = '\n' || c = '\r'

/-- One-character string escapes of JSON. -/
def jsonEsc (e : Char) : Option Char :=
  if e = '"' then some '"'
  else if e = '\\' then some '\\'
  else if e = '/' then some '/'
  else if e = 'b' then some '\x08'
  else if e = 'f' then some '\x0c'
  else if e = 'n' then some '\n'
  else if e = 'r' then some '\r'
  else if e = 't' then some '\t'
  else none

/-- Value of a hex digit. -/
def hexVal (c : Char) : Option Nat :=
  if c.isDigit then some (c.toNat - 48)
  else if 'a' ≤ c ∧ c ≤ 'f' then some (c.toNat - 87)
  else if 'A' ≤ c ∧ c ≤ 'F' then some (c.toNat - 55)
  else none

/-- JSON string body after the opening quote, as the strict-mode scanner
reads it: a raw control character below `0x20` is an error; a `\uXXXX` high
surrogate peeks at an immediately following `\uXXXX` — invalid hex there is
an error, a low surrogate there recombines into one code point, any other
code there leaves the lone high surrogate and reprocesses the escape. A
lone surrogate, which Python keeps as a surrogate code point, falls to
`Char.ofNat`'s replacement since a Lean `Char` cannot carry it (no parse
outcome depends on it). Every step consumes at least one character, so the
fuel `jsonParseStr` passes never runs out. -/
def jsonParseStrGo : Nat → List Char → Option (String × List Char)
  | 0, _ => none
  | fuel + 1, l =>
    match l with
    | [] => none
    | '"' :: rest => some ("", rest)
    | '\\' :: e :: rest =>
      match jsonEsc e with
      | some c => (jsonParseStrGo fuel rest).map fun p => (⟨c :: p.1.data⟩, p.2)
      | none =>
        if e = 'u' then
          match rest with
          | a :: b :: c2 :: d :: rest2 =>
            match hexVal a, hexVal b, hexVal c2, hexVal d with
            | some x1, some x2, some x3, some x4 =>
              let u1 := ((x1 * 16 + x2) * 16 + x3) * 16 + x4
              if 0xD800 ≤ u1 ∧ u1 ≤ 0xDBFF then
                match rest2 with
                | '\\' :: 'u' :: a2 :: b2 :: c3 :: d2 :: rest3 =>
                  match hexVal a2, hexVal b2, hexVal c3, hexVal d2 with
                  | some y1, some y2, some y3, some y4 =>
                    let u2 := ((y1 * 16 + y2) * 16 + y3) * 16 + y4
                    if 0xDC00 ≤ u2 ∧ u2 ≤ 0xDFFF then
                      (jsonParseStrGo fuel rest3).map fun p =>
                        (⟨Char.ofNat (0x10000 + (u1 - 0xD800) * 0x400 + (u2 - 0xDC00)) ::
                          p.1.data⟩, p.2)
                    else
                      (jsonParseStrGo fuel rest2).map fun p =>
                        (⟨Char.ofNat u1 :: p.1.data⟩, p.2)
                  | _, _, _, _ => none
                | _ =>
                  (jsonParseStrGo fuel rest2).map fun p => (⟨Char.ofNat u1 :: p.1.data⟩, p.2)
              else
                (jsonParseStrGo fuel rest2).map fun p => (⟨Char.ofNat u1 :: p.1.data⟩, p.2)
            | _, _, _, _ => none
          | _ => none
        else none
    | c :: rest =>
      if c.toNat < 32 then none
      else (jsonParseStrGo fuel rest).map fun p => (⟨c :: p.1.data⟩, p.2)

/-- JSON string body after the opening quote. -/
def jsonParseStr (l : List Char) : Option (String × List Char) :=
  jsonParseStrGo (l.length + 1) l

/-- Value of a run of decimal digit characters. -/
def jsonDigitsVal (ds : List Char) : Nat :=
  ds.foldl (fun acc c => acc * 10 + (c.toNat - 48)) 0

/-- Exponent tail of a JSON number after the `e`/`E`: an optional sign and
at least one digit; when the digits are missing the regex match ends before
the `e`, so the rest resumes at `fallback`. -/
def jsonExpTail (r fallback : List Char) : Option Int × List Char :=
  let sr : Bool × List Char :=
    match r with
    | '+' :: r2 => (false, r2)
    | '-' :: r2 => (true, r2)
    | r2 => (false, r2)
  let ds := sr.2.takeWhile Char.isDigit
  if ds.isEmpty then (none, fallback)
  else
    let v : Nat := jsonDigitsVal ds
    (some (if sr.1 then -(v : Int) else (v : Int)), sr.2.dropWhile Char.isDigit)

/-- Strip trailing zero fractional digits from a float's exact decimal
components `m / 10 ^ k`. -/
def jsonFloatNorm : Nat → Nat → Nat × Nat
  | m, 0 => (m, 0)
  | m, k + 1 => if m % 10 = 0 then jsonFloatNorm (m / 10) k else (m, k + 1)

/-- JSON number token, matched exactly as the scanner's `NUMBER_RE`
(`-?(0|[1-9][0-9]*)(\.[0-9]+)?([eE][+-]?[0-9]+)?`) matches at the current
position: the integer part allows no leading zero, a dot or `e` not
followed by digits ends the match before it, and a match with a fraction or
exponent is a float while a bare integer part is an int. -/
def jsonParseNum (l : List Char) : Option (PyJson × List Char) :=
  let sl : Bool × List Char := match l with | '-' :: r => (true, r) | r => (false, r)
  match sl.2 with
  | [] => none
  | c :: r0 =>
    if c.isDigit then
      let ipr : List Char × List Char :=
        if c = '0' then ([c], r0)
        else (c :: r0.takeWhile Char.isDigit, r0.dropWhile Char.isDigit)
      let fpr : List Char × List Char :=
        match ipr.2 with
        | '.' :: r =>
          let ds := r.takeWhile Char.isDigit
          if ds.isEmpty then ([], ipr.2) else (ds, r.dropWhile Char.isDigit)
        | _ => ([], ipr.2)
      let epr : Option Int × List Char :=
        match fpr.2 with
        | 'e' :: r => jsonExpTail r fpr.2
        | 'E' :: r => jsonExpTail r fpr.2
        | _ => (none, fpr.2)
      if fpr.1.isEmpty && epr.1.isNone then
        let n := jsonDigitsVal ipr.1
        some (.int (if sl.1 then -(n : Int) else (n : Int)), epr.2)
      else
        let mag : Nat := jsonDigitsVal ipr.1 * 10 ^ fpr.1.length + jsonDigitsVal fpr.1
        let e0 : Int := epr.1.getD 0 - (fpr.1.length : Int)
        let mk : Nat × Nat :=
          if 0 ≤ e0 then (mag * 10 ^ e0.toNat, 0) else jsonFloatNorm mag (-e0).toNat
        some (.float (if sl.1 then -(mk.1 : Int) else (mk.1 : Int)) mk.2, epr.2)
    else none

mutual

/-- Recursive-descent JSON value parser (fuel bounds the recursion depth and
is chosen large enough for every input length). -/
def jsonParseVal : Nat → List Char → Option (PyJson × List Char)
  | 0, _ => none
  | fuel + 1, l =>
    match l.dropWhile jsonWs with
    | [] => none
    | c :: rest =>
      if c = 'n' then
        if isPre "ull".data rest then some (.null, rest.drop 3) else none
      else if c = 't' then
        if isPre "rue".data rest then some (.bool true, rest.drop 3) else none
      else if c = 'f' then
        if isPre "alse".data rest then some (.bool false, rest.drop 4) else none
      else if c = '"' then
        match jsonParseStr rest with
        | some p => some (.str p.1, p.2)
        | none => none
      else if c = '[' then
        match rest.dropWhile jsonWs with
        | ']' :: r2 => some (.arr .nil, r2)
        | r1 =>
          match jsonParseArrItems fuel r1 with
          | some p => some (.arr p.1, p.2)
          | none => none
      else if c = '\x7b' then
        match rest.dropWhile jsonWs with
        | '\x7d' :: r2 => some (.obj .nil, r2)
        | r1 =>
          match jsonParseObjItems fuel r1 with
          | some p => some (.obj (jdictGo .nil p.1), p.2)
          | none => none
      else if c = '-' || c.isDigit then
        match jsonParseNum (c :: rest) with
        | some p => some p
        | none =>
          if c = '-' && isPre "Infinity".data rest then some (.finf true, rest.drop 8)
          else none
      else if c = 'N' then
        if isPre "aN".data rest then some (.fnan, rest.drop 2) else none
      else if c = 'I' then
        if isPre "nfinity".data rest then some (.finf false, rest.drop 7) else none
      else none

/-- Comma-separated array items up to `]`. -/
def jsonParseArrItems : Nat → List Char → Option (PyJsonList × List Char)
  | 0, _ => none
  | fuel + 1, l =>
    match jsonParseVal fuel l with
    | none => none
    | some (v, r) =>
      match r.dropWhile jsonWs with
      | ',' :: r2 =>
        match jsonParseArrItems fuel r2 with
        | some p => some (.cons v p.1, p.2)
        | none => none
      | ']' :: r2 => some (.cons v .nil, r2)
      | _ => none

/-- Comma-separated object members up to the closing brace. -/
def jsonParseObjItems : Nat → List Char → Option (PyJsonFields × List Char)
  | 0, _ => none
  | fuel + 1, l =>
    match l.dropWhile jsonWs with
    | '"' :: r0 =>
      match jsonParseStr r0 with
      | none => none
      | some (k, r1) =>
        match r1.dropWhile jsonWs with
        | ':' :: r2 =>
          match jsonParseVal fuel r2 with
          | none => none
          | some (v, r3) =>
            match r3.dropWhile jsonWs with
            | ',' :: r4 =>
              match jsonParseObjItems fuel r4 with
              | some p => some (.cons k v p.1, p.2)
              | none => none
            | '\x7d' :: r4 => some (.cons k v .nil, r4)
            | _ => none
        | _ => none
    | _ => none

end

/-- `json.loads` as an `Option` (`none` is the raised `JSONDecodeError`). -/
def jsonLoads? (s : String) : Option PyJson :=
  match jsonParseVal (4 * s.length + 16) s.data with
  | some (v, r) => if r.dropWhile jsonWs = [] then some v else none
  | none => none

/-- A track entry of the JSON codec with Python's dynamic field values. -/
structure JTrack where
  location : String
  title : Option PyJson := none
  artist : Option PyJson := none
  album : Option PyJson := none
  duration : Option PyJson := none
  metadata : PyJsonFields := .nil
deriving Repr

/-- The metadata comprehension: every member whose key is not one of the
five lifted names, in order. -/
def jMetaOf : PyJsonFields → PyJsonFields
  | .nil => .nil
  | .cons k v t =>
    if k = "location" ∨ k = "title" ∨ k = "artist" ∨ k = "album" ∨ k = "duration" then
      jMetaOf t
    else .cons k v (jMetaOf t)

/-- The per-track loop body of `JSONParser.parse`: entries are built from
dict tracks that carry a `location` key; a non-string location makes
`normalize_path` raise `TypeError`, aborting the whole parse into `[]`
(outer `none`); a non-dict or location-less track is skipped. -/
def jsonTracksOf : PyJsonList → Option (List JTrack)
  | .nil => some []
  | .cons t rest =>
    match t with
    | .obj fields =>
      match jget? fields "location" with
      | some (.str s) =>
        (jsonTracksOf rest).map fun l =>
          { location := normalize_path s
            title := jget? fields "title"
            artist := jget? fields "artist"
            album := jget? fields "album"
            duration := jget? fields "duration"
            metadata := jMetaOf fields } :: l
      | some _ => none
      | none => jsonTracksOf rest
    | _ => jsonTracksOf rest

/-- `JSONParser.parse`: the bare `except` turns any failure into `[]`. -/
def jsonCodecParse (content : String) : List JTrack :=
  match jsonLoads? content with
  | none => []
  | some data =>
    match data with
    | .obj fields =>
      match jget? fields "tracks" with
      | some (.arr items) => (jsonTracksOf items).getD []
      | _ => []
    | .arr items => (jsonTracksOf items).getD []
    | _ => []

/-- Python truthiness over JSON values. -/
def pyTruthy : PyJson → Bool
  | .null => false
  | .bool b => b
  | .int n => n ≠ 0
  | .float m _ => m ≠ 0
  | .fnan => true
  | .finf _ => true
  | .str s => s ≠ ""
  | .arr .nil => false
  | .arr (.cons _ _) => true
  | .obj .nil => false
  | .obj (.cons _ _ _) => true

/-- Python truthiness of an optional JSON value. -/
def pyTruthyOptJ : Option PyJson → Bool
  | none => false
  | some v => pyTruthy v

/-- The per-entry track-dict construction of `JSONParser.serialize`:
`location` first, the truthy lifted fields, `duration` when present, then
the metadata merged back in. -/
def jTrackToObj (e : JTrack) : PyJsonFields :=
  let t0 : PyJsonFields := .cons "location" (.str e.location) .nil
  let t1 := if pyTruthyOptJ e.title then jinsert t0 "title" (e.title.getD .null) else t0
  let t2 := if pyTruthyOptJ e.artist then jinsert t1 "artist" (e.artist.getD .null) else t1
  let t3 := if pyTruthyOptJ e.album then jinsert t2 "album" (e.album.getD .null) else t2
  let t4 := match e.duration with
    | some v => jinsert t3 "duration" v
    | none => t3
  match e.metadata with
  | .nil => t4
  | .cons k v t => jupdate t4 (.cons k v t)

/-- Hex digit as `json.dumps` prints it (lowercase). -/
def dumpsHexDigit (n : Nat) : Char :=
  if n < 10 then Char.ofNat (48 + n) else Char.ofNat (87 + n)

/-- A `\uXXXX` escape of `json.dumps`. -/
def dumpsHex4 (n : Nat) : List Char :=
  ['\\', 'u', dumpsHexDigit (n / 4096 % 16), dumpsHexDigit (n / 256 % 16),
   dumpsHexDigit (n / 16 % 16), dumpsHexDigit (n % 16)]

/-- One character of `json.dumps` string output with `ensure_ascii`: the
short escapes, `\uXXXX` above ASCII, a surrogate pair of escapes above
`0xFFFF`. -/
def dumpsEscChar (c : Char) : List Char :=
  if c = '"' then ['\\', '"']
  else if c = '\\' then ['\\', '\\']
  else if c = '\n' then ['\\', 'n']
  else if c = '\t' then ['\\', 't']
  else if c = '\r' then ['\\', 'r']
  else if c = '\x08' then ['\\', 'b']
  else if c = '\x0c' then ['\\', 'f']
  else if c.toNat > 0xFFFF then
    let v := c.toNat - 0x10000
    dumpsHex4 (0xD800 + v / 0x400) ++ dumpsHex4 (0xDC00 + v % 0x400)
  else if c.toNat < 32 || c.toNat > 126 then dumpsHex4 c.toNat
  else [c]

/-- `json.dumps` string literal. -/
def dumpsStr (s : String) : List Char :=
  '"' :: s.data.foldr (fun c acc => dumpsEscChar c ++ acc) ['"']

/-- Indentation prefix of `json.dumps(..., indent=2)`. -/
def jsonIndent (level : Nat) : List Char := List.replicate (2 * level) ' '

/-- Decimal rendering of a finite float for `json.dumps`: the digits of the
exact value with a decimal point, `x.0` when integral, as `float.__repr__`
prints the values in its plain regime (its scientific-notation regimes lie
outside every embedded input, and no claim computation reaches this
printer). -/
def dumpsFloat (m : Int) (k : Nat) : List Char :=
  if k = 0 then (pyIntStr m).data ++ ".0".data
  else
    let ds := natDigits (m.natAbs % 10 ^ k)
    (if m < 0 then ['-'] else []) ++ natDigits (m.natAbs / 10 ^ k) ++
      '.' :: (List.replicate (k - ds.length) '0' ++ ds)

mutual

/-- `json.dumps(value, indent=2)` (with the default separators). -/
def jsonDumpsVal (level : Nat) : PyJson → List Char
  | .null => "null".data
  | .bool b => if b then "true".data else "false".data
  | .int n => (pyIntStr n).data
  | .float m k => dumpsFloat m k
  | .fnan => "NaN".data
  | .finf neg => if neg then "-Infinity".data else "Infinity".data
  | .str s => dumpsStr s
  | .arr .nil => "[]".data
  | .arr (.cons v vs) =>
    '[' :: '\n' :: (jsonDumpsItems (level + 1) (.cons v vs) ++ '\n' :: jsonIndent level ++ [']'])
  | .obj .nil => ['\x7b', '\x7d']
  | .obj (.cons k v fs) =>
    '\x7b' :: '\n' ::
      (jsonDumpsFields (level + 1) (.cons k v fs) ++ '\n' :: jsonIndent level ++ ['\x7d'])

/-- Indented, comma-separated array items. -/
def jsonDumpsItems (level : Nat) : PyJsonList → List Char
  | .nil => []
  | .cons v .nil => jsonIndent level ++ jsonDumpsVal level v
  | .cons v (.cons w ws) =>
    jsonIndent level ++ jsonDumpsVal level v ++ ',' :: '\n' :: jsonDumpsItems level (.cons w ws)

/-- Indented, comma-separated object members. -/
def jsonDumpsFields (level : Nat) : PyJsonFields → List Char
  | .nil => []
  | .cons k v .nil => jsonIndent level ++ dumpsStr k ++ ':' :: ' ' :: jsonDumpsVal level v
  | .cons k v (.cons k2 v2 fs) =>
    jsonIndent level ++ dumpsStr k ++ ':' :: ' ' :: jsonDumpsVal level v ++
      ',' :: '\n' :: jsonDumpsFields level (.cons k2 v2 fs)

end

/-- List-to-`PyJsonList` packaging of the serializer's track array. -/
def jArrOfTracks : List JTrack → PyJsonList
  | [] => .nil
  | e :: es => .cons (.obj (jTrackToObj e)) (jArrOfTracks es)

/-- `JSONParser.serialize`: array shape only when the original text parses
as a JSON array, else the object-with-`tracks` shape. -/
def jsonCodecSerialize (entries : List JTrack) (original : Option String) : String :=
  let structureArray : Bool :=
    match original with
    | some content =>
      match jsonLoads? content with
      | some (.arr _) => true
      | _ => false
    | none => false
  let tracks : PyJson := .arr (jArrOfTracks entries)
  if structureArray then ⟨jsonDumpsVal 0 tracks⟩
  else ⟨jsonDumpsVal 0 (.obj (.cons "tracks" tracks .nil))⟩

/-- The concrete JSON document of claim C8. -/
def jsonC8input : String := "\x7b\"tracks\":[\x7b\"location\":\"x.mp3\",\"bitrate\":320\x7d]\x7d"

/-! ## The XSPF codec (`playlist.py`, `XSPFParser.parse`) -/

/-- An XML element as `xml.etree.ElementTree` presents it: qualified tag,
text before the first child, children in document order. -/
inductive XmlElem where
  | mk (tag : String) (text : Option String) (children : List XmlElem)

/-- Tag accessor. -/
def XmlElem.tag : XmlElem → String
  | .mk t _ _ => t

/-- Text accessor. -/
def XmlElem.text : XmlElem → Option String
  | .mk _ tx _ => tx

/-- Children accessor. -/
def XmlElem.children : XmlElem → List XmlElem
  | .mk _ _ cs => cs

mutual

/-- All proper descendants in document order (`.//` of ElementTree). -/
def xmlAllDesc : XmlElem → List XmlElem
  | .mk _ _ cs => xmlAllDescList cs

/-- Descendants of a forest. -/
def xmlAllDescList : List XmlElem → List XmlElem
  | [] => []
  | c :: cs => c :: (xmlAllDesc c ++ xmlAllDescList cs)

end

/-- `element.find(tag)`: first direct child with the tag. -/
def xmlFindChild (e : XmlElem) (t : String) : Option XmlElem :=
  e.children.find? fun c => c.tag = t

/-- ElementTree's qualified-name form of an XSPF tag. -/
def nsTag (name : String) : String := "\x7bhttp://xspf.org/ns/0/\x7d" ++ name

/-- The optional-text reading `elem.text if elem is not None and elem.text
else None`. -/
def xmlOptText (e : Option XmlElem) : Option String :=
  match e with
  | some el =>
    match el.text with
    | some tx => if tx = "" then none else some tx
    | none => none
  | none => none

/-- One `track` element of `XSPFParser.parse`. -/
def xspfTrackEntry (track : XmlElem) : Option PlaylistEntry :=
  let location :=
    match xmlOptText (xmlFindChild track (nsTag "location")) with
    | some tx => normalize_path (pyStrip tx)
    | none => ""
  let title := xmlOptText (xmlFindChild track (nsTag "title"))
  let artist := xmlOptText (xmlFindChild track (nsTag "creator"))
  let album := xmlOptText (xmlFindChild track (nsTag "album"))
  let duration :=
    match xmlOptText (xmlFindChild track (nsTag "duration")) with
    | some tx =>
      match pyInt? tx with
      | some n => some (Int.tdiv n 1000)
      | none => none
    | none => none
  if location ≠ "" then
    some { location := location, title := title, duration := duration,
           artist := artist, album := album }
  else none

/-- `XSPFParser.parse` over an injectable `ET.fromstring` oracle; any parse
failure of the oracle is the `except Exception` path yielding `[]`. -/
def xspfParse (xmlParse : String → Option XmlElem) (content : String) : List PlaylistEntry :=
  match xmlParse content with
  | none => []
  | some root =>
    ((xmlAllDesc root).filter fun e => e.tag = nsTag "track").filterMap xspfTrackEntry

/-! # Theorems

First the supporting lemmas, then one theorem per claim (with witnesses and
counterexamples where required). -/

/-! ## The Fisher-Yates loop permutes its input -/

/-- Putting the old element `xs[m]` in front of `xs` with `x` written at `m`
permutes `x :: xs`. -/
theorem cons_getD_set_perm [Inhabited α] :
    ∀ (xs : List α) (m : Nat) (x : α), m < xs.length →
      List.Perm (xs.getD m default :: xs.set m x) (x :: xs) := by
  intro xs
  induction xs with
  | nil => intro m x h; simp at h
  | cons a t ih =>
    intro m x h
    cases m with
    | zero => simpa using List.Perm.swap x a t
    | succ k =>
      have hk : k < t.length := Nat.lt_of_succ_lt_succ h
      have step1 : List.Perm (t.getD k default :: a :: t.set k x) (a :: t.getD k default :: t.set k x) :=
        List.Perm.swap a (t.getD k default) (t.set k x)
      have step2 : List.Perm (a :: t.getD k default :: t.set k x) (a :: x :: t) :=
        (ih k x hk).cons a
      have step3 : List.Perm (a :: x :: t) (x :: a :: t) := List.Perm.swap x a t
      simpa using (step1.trans step2).trans step3

/-- Swapping two valid positions permutes the list. -/
theorem listSwap_perm [Inhabited α] :
    ∀ (l : List α) (i j : Nat), i < l.length → j < l.length →
      List.Perm (listSwap l i j) l := by
  intro l
  induction l with
  | nil => intro i j hi _; simp at hi
  | cons a t ih =>
    intro i j hi hj
    cases i with
    | zero =>
      cases j with
      | zero => simp [listSwap]
      | succ m =>
        have hm : m < t.length := Nat.lt_of_succ_lt_succ hj
        simpa [listSwap] using cons_getD_set_perm t m a hm
    | succ k =>
      cases j with
      | zero =>
        have hk : k < t.length := Nat.lt_of_succ_lt_succ hi
        simpa [listSwap] using cons_getD_set_perm t k a hk
      | succ m =>
        have hk : k < t.length := Nat.lt_of_succ_lt_succ hi
        have hm : m < t.length := Nat.lt_of_succ_lt_succ hj
        simpa [listSwap] using (ih k m hk hm).cons a

/-- Swapping preserves length. -/
theorem listSwap_length [Inhabited α] (l : List α) (i j : Nat) :
    (listSwap l i j).length = l.length := by
  simp [listSwap]

/-- Every prefix of the shuffle loop permutes its input. -/
theorem fyGo_perm [Inhabited α] (rng : Nat → Nat) :
    ∀ (k : Nat) (l : List α), k < l.length → List.Perm (fyGo rng l k) l := by
  intro k
  induction k with
  | zero => intro l _; simp [fyGo]
  | succ n ih =>
    intro l h
    have hj : rng (n + 1) % (n + 2) < l.length := by
      have := Nat.mod_lt (rng (n + 1)) (y := n + 2) (by omega)
      omega
    have hswap := listSwap_perm l (n + 1) (rng (n + 1) % (n + 2)) h hj
    have hlen : n < (listSwap l (n + 1) (rng (n + 1) % (n + 2))).length := by
      rw [listSwap_length]; omega
    exact List.Perm.trans (ih _ hlen) hswap

/-- `random.shuffle` permutes its input, whatever the random source does. -/
theorem pyShuffle_perm [Inhabited α] (rng : Nat → Nat) (l : List α) :
    List.Perm (pyShuffle rng l) l := by
  cases l with
  | nil => simp [pyShuffle, fyGo]
  | cons a t =>
    exact fyGo_perm rng _ _ (by simp)

/-! ## Field-preservation of `_play_playlist_track` -/

/-- Starting the current track never moves the index. -/
theorem playTrackSt_index (t : PlayerState) :
    (playTrackSt t).current_playlist_index = t.current_playlist_index := by
  unfold playTrackSt play_playlist_track
  cases hcp : t.current_playlist with
  | none => simp [hcp]
  | some pl => simp only; split <;> simp [hcp]

/-- Starting the current track never changes the bound playlist. -/
theorem playTrackSt_playlist (t : PlayerState) :
    (playTrackSt t).current_playlist = t.current_playlist := by
  unfold playTrackSt play_playlist_track
  cases hcp : t.current_playlist with
  | none => simp [hcp]
  | some pl => simp only; split <;> simp [hcp]

/-- Starting the current track never changes the mode. -/
theorem playTrackSt_mode (t : PlayerState) :
    (playTrackSt t).playlist_mode = t.playlist_mode := by
  unfold playTrackSt play_playlist_track
  cases hcp : t.current_playlist with
  | none => simp [hcp]
  | some pl => simp only; split <;> simp [hcp]

/-- Starting the current track never changes the shuffle order. -/
theorem playTrackSt_order (t : PlayerState) :
    (playTrackSt t).shuffle_order = t.shuffle_order := by
  unfold playTrackSt play_playlist_track
  cases hcp : t.current_playlist with
  | none => simp [hcp]
  | some pl => simp only; split <;> simp [hcp]

/-- With a valid index the track starts and the state becomes Playing. -/
theorem playTrackSt_valid {s : PlayerState} {p : List PlaylistEntry}
    (h : s.current_playlist = some p) (h0 : 0 ≤ s.current_playlist_index)
    (h1 : s.current_playlist_index < (p.length : Int)) :
    playTrackSt s = { s with playlist_state := .playing } := by
  have hlen : 0 < p.length := by exact_mod_cast lt_of_le_of_lt h0 h1
  simp [playTrackSt, play_playlist_track, h, hlen, h0, h1]

/-- With an out-of-range index `_play_playlist_track` is a no-op. -/
theorem playTrackSt_oob {s : PlayerState} {p : List PlaylistEntry}
    (h : s.current_playlist = some p)
    (hbad : ¬(0 ≤ s.current_playlist_index ∧ s.current_playlist_index < (p.length : Int))) :
    playTrackSt s = s := by
  unfold playTrackSt play_playlist_track
  rw [h]
  simp only
  rw [if_neg]
  rintro ⟨-, h2, h3⟩
  exact hbad ⟨h2, h3⟩

/-! ## Sequential advance -/

/-- A sequential advance strictly inside the playlist steps the index up by
one and plays. -/
theorem advance_seq_mid {s : PlayerState} {pl : List PlaylistEntry}
    (h : s.current_playlist = some pl) (hm : s.playlist_mode = .sequential)
    (h0 : 0 ≤ s.current_playlist_index)
    (h1 : s.current_playlist_index + 1 < (pl.length : Int)) :
    advance_track s = { s with current_playlist_index := s.current_playlist_index + 1,
                               playlist_state := .playing } := by
  have hlen : pl.length ≠ 0 := by omega
  have key : advance_track s = playTrackSt { s with current_playlist_index := s.current_playlist_index + 1 } := by
    simp only [advance_track, h, hm]
    rw [if_neg hlen, if_neg (not_le.mpr h1)]
  rw [key, playTrackSt_valid (p := pl) (by simpa using h) (by simpa using by omega) (by simpa using h1)]

/-- A sequential advance that runs off the end still increments the index
and only then transitions to Finished. -/
theorem advance_seq_end {s : PlayerState} {pl : List PlaylistEntry}
    (h : s.current_playlist = some pl) (hm : s.playlist_mode = .sequential)
    (hlen : 0 < pl.length)
    (hend : (pl.length : Int) ≤ s.current_playlist_index + 1) :
    advance_track s = { s with current_playlist_index := s.current_playlist_index + 1,
                               playlist_state := .finished } := by
  have hlen' : pl.length ≠ 0 := by omega
  simp only [advance_track, h, hm]
  rw [if_neg hlen', if_pos hend, if_neg (by simp)]

/-- A RepeatAll advance that runs off the end wraps to index 0 and plays. -/
theorem advance_repeat_all_end {s : PlayerState} {pl : List PlaylistEntry}
    (h : s.current_playlist = some pl) (hm : s.playlist_mode = .repeat_all)
    (hlen : 0 < pl.length)
    (hend : (pl.length : Int) ≤ s.current_playlist_index + 1) :
    advance_track s = { s with current_playlist_index := 0, playlist_state := .playing } := by
  have hlen' : pl.length ≠ 0 := by omega
  have key : advance_track s = playTrackSt { s with current_playlist_index := 0 } := by
    simp only [advance_track, h, hm]
    rw [if_neg hlen', if_pos hend]
    simp
  rw [key, playTrackSt_valid (p := pl) (by simpa using h) (by simp) (by simpa using by exact_mod_cast hlen)]

/-- Iterating sequential advance from index 0 walks the index to `k`. -/
theorem advance_seq_iter {s : PlayerState} {pl : List PlaylistEntry}
    (h : s.current_playlist = some pl) (hm : s.playlist_mode = .sequential)
    (hi : s.current_playlist_index = 0) :
    ∀ k : Nat, k < pl.length →
      (advance_track^[k] s).current_playlist = some pl ∧
      (advance_track^[k] s).playlist_mode = .sequential ∧
      (advance_track^[k] s).current_playlist_index = (k : Int) := by
  intro k
  induction k with
  | zero => intro _; exact ⟨h, hm, by simpa using hi⟩
  | succ n ih =>
    intro hk
    obtain ⟨ih1, ih2, ih3⟩ := ih (by omega)
    rw [Function.iterate_succ_apply']
    rw [advance_seq_mid ih1 ih2 (by rw [ih3]; exact_mod_cast Int.ofNat_nonneg n)
      (by rw [ih3]; omega)]
    refine ⟨by simpa using ih1, by simpa using ih2, ?_⟩
    simp only
    rw [ih3]
    push_cast
    ring

/-- Claim C1 (amended): starting from index 0 in Sequential mode on a bound
playlist of `N > 0` entries, `advance` applied `N-1` times reaches index
`N-1`; one further Sequential advance sets the playlist state to Finished
while moving `current_index` on to `N` (not leaving it unchanged), whereas
the same advance under RepeatAll wraps `current_index` to 0 with state
Playing. -/
theorem claim_C1 (s : PlayerState) (pl : List PlaylistEntry)
    (h : s.current_playlist = some pl) (hm : s.playlist_mode = .sequential)
    (hi : s.current_playlist_index = 0) (hn : 0 < pl.length) :
    (advance_track^[pl.length - 1] s).current_playlist_index = ((pl.length - 1 : Nat) : Int) ∧
    (advance_track (advance_track^[pl.length - 1] s)).playlist_state = .finished ∧
    (advance_track (advance_track^[pl.length - 1] s)).current_playlist_index = (pl.length : Int) ∧
    (advance_track { advance_track^[pl.length - 1] s with
        playlist_mode := .repeat_all }).current_playlist_index = 0 ∧
    (advance_track { advance_track^[pl.length - 1] s with
        playlist_mode := .repeat_all }).playlist_state = .playing := by
  obtain ⟨hf1, hf2, hf3⟩ := advance_seq_iter h hm hi (pl.length - 1) (by omega)
  have hend : (pl.length : Int) ≤ (advance_track^[pl.length - 1] s).current_playlist_index + 1 := by
    rw [hf3]; omega
  refine ⟨hf3, ?_, ?_, ?_, ?_⟩
  · rw [advance_seq_end hf1 hf2 hn hend]
  · rw [advance_seq_end hf1 hf2 hn hend]
    simp only
    rw [hf3]; omega
  · rw [advance_repeat_all_end (by simpa using hf1) rfl hn (by simpa using hend)]
  · rw [advance_repeat_all_end (by simpa using hf1) rfl hn (by simpa using hend)]

/-- Witness for C1 on the concrete two-entry playlist. -/
theorem claim_C1_witness :
    (advance_track^[plTwo.length - 1] sSeqTwo).current_playlist_index = ((plTwo.length - 1 : Nat) : Int) ∧
    (advance_track (advance_track^[plTwo.length - 1] sSeqTwo)).playlist_state = .finished ∧
    (advance_track (advance_track^[plTwo.length - 1] sSeqTwo)).current_playlist_index = (plTwo.length : Int) ∧
    (advance_track { advance_track^[plTwo.length - 1] sSeqTwo with
        playlist_mode := .repeat_all }).current_playlist_index = 0 ∧
    (advance_track { advance_track^[plTwo.length - 1] sSeqTwo with
        playlist_mode := .repeat_all }).playlist_state = .playing :=
  claim_C1 sSeqTwo plTwo rfl rfl rfl (by decide)

/-- Counterexample to C1 as stated: on the one-entry playlist at index 0,
the Finished-producing advance does not leave `current_index` unchanged —
it moves it from 0 to 1. -/
theorem claim_C1_counterexample :
    sSeqOne.current_playlist_index = 0 ∧ sSeqOne.playlist_mode = .sequential ∧
    (advance_track sSeqOne).playlist_state = .finished ∧
    (advance_track sSeqOne).current_playlist_index = 1 ∧
    ¬(advance_track sSeqOne).current_playlist_index = sSeqOne.current_playlist_index := by
  refine ⟨rfl, rfl, ?_, ?_, ?_⟩ <;> decide

/-! ## Claim C3: shuffle order generation -/

/-- `intRange` has length `n`. -/
theorem intRange_length (n : Nat) : (intRange n).length = n := by
  unfold intRange
  rw [List.length_map]
  exact List.length_range n

/-- Members of `intRange` are non-negative. -/
theorem intRange_nonneg {n : Nat} {x : Int} (hx : x ∈ intRange n) : 0 ≤ x := by
  unfold intRange at hx
  rw [List.mem_map] at hx
  obtain ⟨k, -, hk⟩ := hx
  exact hk ▸ Int.ofNat_nonneg k

/-- Switching to Shuffle regenerates the order from the current playlist
length and the random source alone. -/
theorem set_mode_shuffle_order (rng : Nat → Nat) (s : PlayerState) (pl : List PlaylistEntry)
    (h : s.current_playlist = some pl) (hn : 0 < pl.length) :
    (set_playlist_mode rng .shuffle s).shuffle_order = pyShuffle rng (intRange pl.length) := by
  simp [set_playlist_mode, generate_shuffle_order, h, hn]

/-- Loading a non-empty playlist in Shuffle mode regenerates the order from
the new playlist length and the random source alone, whatever the prior
state held. -/
theorem load_shuffle_order (rng : Nat → Nat) (t : PlayerState) (pl : List PlaylistEntry)
    (auto : Bool) (hn : 0 < pl.length) :
    (load_playlist rng (some pl) auto .shuffle t).shuffle_order = pyShuffle rng (intRange pl.length) := by
  simp only [load_playlist]
  rw [if_pos hn]
  rw [playTrackSt_order]
  simp [generate_shuffle_order, hn]

/-- Claim C3: on switching a bound playlist of `N > 0` entries to Shuffle
mode — through `set_playlist_mode` or `load_playlist` — the generated
`shuffle_order` is a permutation of the indices `0..N-1` (length `N`, each
index exactly once), and it is computed afresh from the playlist length and
the random source only, discarding anything remembered about the previous
shuffle traversal (for `load_playlist` the prior state `t` is arbitrary). -/
theorem claim_C3 (rng : Nat → Nat) (s t : PlayerState) (pl : List PlaylistEntry)
    (h : s.current_playlist = some pl) (hn : 0 < pl.length) (auto : Bool) :
    (set_playlist_mode rng .shuffle s).shuffle_order = pyShuffle rng (intRange pl.length) ∧
    List.Perm (set_playlist_mode rng .shuffle s).shuffle_order (intRange pl.length) ∧
    (set_playlist_mode rng .shuffle s).shuffle_order.length = pl.length ∧
    (load_playlist rng (some pl) auto .shuffle t).shuffle_order = pyShuffle rng (intRange pl.length) ∧
    List.Perm (load_playlist rng (some pl) auto .shuffle t).shuffle_order (intRange pl.length) := by
  have e1 := set_mode_shuffle_order rng s pl h hn
  have e2 := load_shuffle_order rng t pl auto hn
  have hperm : List.Perm (pyShuffle rng (intRange pl.length)) (intRange pl.length) :=
    pyShuffle_perm rng _
  refine ⟨e1, ?_, ?_, e2, ?_⟩
  · rw [e1]; exact hperm
  · rw [e1, hperm.length_eq, intRange_length]
  · rw [e2]; exact hperm

/-- Witness for C3 at the three-entry playlist and the `rngSwap201` oracle. -/
theorem claim_C3_witness :
    (set_playlist_mode rngSwap201 .shuffle sShufThree).shuffle_order =
      pyShuffle rngSwap201 (intRange plThree.length) ∧
    List.Perm (set_playlist_mode rngSwap201 .shuffle sShufThree).shuffle_order
      (intRange plThree.length) ∧
    (set_playlist_mode rngSwap201 .shuffle sShufThree).shuffle_order.length = plThree.length ∧
    (load_playlist rngSwap201 (some plThree) false .shuffle initState).shuffle_order =
      pyShuffle rngSwap201 (intRange plThree.length) ∧
    List.Perm (load_playlist rngSwap201 (some plThree) false .shuffle initState).shuffle_order
      (intRange plThree.length) :=
  claim_C3 rngSwap201 sShufThree initState plThree (by decide) (by decide) false

/-! ## Claim C4: previous -/

/-- Claim C4 (amended): on a non-empty bound playlist, `previous` in every
non-Shuffle mode moves the index to `max 0 (index-1)` — so from index 0 it
stays at 0 and is never negative.  In Shuffle mode `previous` instead steps
one position back inside `shuffle_order`, clamped at shuffle position 0, so
`current_index = 0` is preserved only when entry 0 sits at shuffle position
0; when the index is absent from the order the Python `ValueError` aborts
the call with the state unchanged.  With a controller-generated order (a
permutation of `0..N-1`) a non-negative index stays non-negative. -/
theorem claim_C4 (s : PlayerState) (pl : List PlaylistEntry)
    (h : s.current_playlist = some pl) (hn : 0 < pl.length) :
    (s.playlist_mode ≠ .shuffle →
      (previous_op s).current_playlist_index = max 0 (s.current_playlist_index - 1) ∧
      0 ≤ (previous_op s).current_playlist_index) ∧
    (∀ pos : Nat, s.playlist_mode = .shuffle →
      pyListIndex? s.current_playlist_index s.shuffle_order = some pos →
      (previous_op s).current_playlist_index = s.shuffle_order.getD (pos - 1) 0) ∧
    (s.playlist_mode = .shuffle →
      pyListIndex? s.current_playlist_index s.shuffle_order = none →
      previous_op s = s) ∧
    (s.playlist_mode = .shuffle → List.Perm s.shuffle_order (intRange pl.length) →
      0 ≤ s.current_playlist_index → 0 ≤ (previous_op s).current_playlist_index) := by
  have P1 : s.playlist_mode ≠ .shuffle →
      (previous_op s).current_playlist_index = max 0 (s.current_playlist_index - 1) := by
    intro hns
    simp only [previous_op, h]
    rw [if_pos hn, if_neg hns, playTrackSt_index]
  have P2 : ∀ pos : Nat, s.playlist_mode = .shuffle →
      pyListIndex? s.current_playlist_index s.shuffle_order = some pos →
      (previous_op s).current_playlist_index = s.shuffle_order.getD (pos - 1) 0 := by
    intro pos hsm hfind
    simp only [previous_op, h]
    rw [if_pos hn, if_pos hsm, hfind, playTrackSt_index]
  have P3 : s.playlist_mode = .shuffle →
      pyListIndex? s.current_playlist_index s.shuffle_order = none →
      previous_op s = s := by
    intro hsm hfind
    simp only [previous_op, h]
    rw [if_pos hn, if_pos hsm, hfind]
  refine ⟨fun hns => ⟨P1 hns, by rw [P1 hns]; omega⟩, P2, P3, ?_⟩
  intro hsm hperm h0
  cases hfind : pyListIndex? s.current_playlist_index s.shuffle_order with
  | none => rw [P3 hsm hfind]; exact h0
  | some pos =>
    rw [P2 pos hsm hfind]
    by_cases hlt : pos - 1 < s.shuffle_order.length
    · have hmem : s.shuffle_order.getD (pos - 1) 0 ∈ s.shuffle_order := by
        rw [List.getD_eq_getElem _ _ hlt]
        exact List.getElem_mem hlt
      exact intRange_nonneg (hperm.mem_iff.mp hmem)
    · rw [List.getD_eq_default _ _ (by omega)]

/-- Witness for C4: on the loaded shuffle state with order `[2, 0, 1]` and
index 0, `previous` lands on the order element one shuffle position back. -/
theorem claim_C4_witness :
    (previous_op sShufThree).current_playlist_index = sShufThree.shuffle_order.getD (1 - 1) 0 :=
  (claim_C4 sShufThree plThree (by decide) (by decide)).2.1 1 (by decide) (by decide)

/-- Counterexample to C4 as stated: a reachable Shuffle state over a
non-empty playlist with `current_index = 0` where `previous` moves the index
to 2 instead of keeping it at 0. -/
theorem claim_C4_counterexample :
    sShufThree.current_playlist = some plThree ∧ 0 < plThree.length ∧
    sShufThree.playlist_mode = .shuffle ∧ sShufThree.current_playlist_index = 0 ∧
    (previous_op sShufThree).current_playlist_index = 2 := by
  refine ⟨?_, ?_, ?_, ?_, ?_⟩ <;> decide

/-! ## Claim C5: issuing a track to the backend -/

/-- Claim C5 (amended): whenever the controller starts a playlist entry (the
index is valid), it sends the entry location to the backend as a file load
exactly when the location is a non-empty string — `is_path` never consults
the filesystem — and as a URL load only for the empty location, then issues
play and sets the playlist state to Playing. -/
theorem claim_C5 (s : PlayerState) (pl : List PlaylistEntry)
    (h : s.current_playlist = some pl) (h0 : 0 ≤ s.current_playlist_index)
    (h1 : s.current_playlist_index < (pl.length : Int)) :
    (play_playlist_track s).2 =
      [if currentLocation s pl = "" then .load_url (currentLocation s pl)
       else .load_file (currentLocation s pl), .play] ∧
    (play_playlist_track s).1.playlist_state = .playing := by
  have hlen : 0 < pl.length := by exact_mod_cast lt_of_le_of_lt h0 h1
  constructor
  · simp only [play_playlist_track, h]
    rw [if_pos ⟨hlen, h0, h1⟩]
    simp only [currentLocation, is_path]
    by_cases hloc : (pl.getD s.current_playlist_index.toNat default).location = ""
    · simp [hloc]
    · simp [hloc]
  · simp only [play_playlist_track, h]
    rw [if_pos ⟨hlen, h0, h1⟩]

/-- Witness for C5 on a concrete single-entry playlist. -/
theorem claim_C5_witness :
    (play_playlist_track sPlayX).2 =
      [if currentLocation sPlayX [{ location := "x.mp3" }] = "" then
        .load_url (currentLocation sPlayX [{ location := "x.mp3" }])
       else .load_file (currentLocation sPlayX [{ location := "x.mp3" }]), .play] ∧
    (play_playlist_track sPlayX).1.playlist_state = .playing :=
  claim_C5 sPlayX [{ location := "x.mp3" }] rfl (by decide) (by decide)

/-- Counterexample to C5 as stated: with a filesystem on which no path
exists, the entry `"missing.mp3"` is still issued as a file load, so the
file-load-iff-existing-path rule is false. -/
theorem claim_C5_counterexample : ¬ fileLoadIffExists (fun _ => false) := by
  intro hcl
  have h2 := hcl sPlayMissing [{ location := "missing.mp3" }] rfl (by decide) (by decide)
  have h3 : (play_playlist_track sPlayMissing).2.head? =
      some (.load_file (currentLocation sPlayMissing [{ location := "missing.mp3" }])) := by decide
  have h4 := h2.mp h3
  simp at h4

/-! ## Claim C2: the index invariant -/

/-- `pyListIndex?` only returns indices inside the list. -/
theorem pyListIndex?_some_lt {x : Int} :
    ∀ {l : List Int} {i : Nat}, pyListIndex? x l = some i → i < l.length := by
  intro l
  induction l with
  | nil => intro i h; simp [pyListIndex?] at h
  | cons a t ih =>
    intro i h
    rw [pyListIndex?] at h
    by_cases hp : a = x
    · rw [if_pos hp] at h
      obtain rfl : (0 : Nat) = i := by injection h
      simp
    · rw [if_neg hp] at h
      cases hft : pyListIndex? x t with
      | none => rw [hft] at h; simp at h
      | some j =>
        rw [hft] at h
        simp only [Option.map_some'] at h
        obtain rfl : j + 1 = i := by injection h
        have := ih hft
        simp only [List.length_cons]
        omega

/-- Members of `intRange n` are below `n`. -/
theorem intRange_mem_lt {n : Nat} {x : Int} (hx : x ∈ intRange n) : x < (n : Int) := by
  unfold intRange at hx
  rw [List.mem_map] at hx
  obtain ⟨k, hk, he⟩ := hx
  rw [List.mem_range] at hk
  rw [← he]
  exact Int.ofNat_lt.mpr hk

/-- An in-bounds element of a permutation of `intRange` is a valid index. -/
theorem order_elem_valid {ord : List Int} {n : Nat} {k : Nat}
    (hperm : List.Perm ord (intRange n)) (hk : k < ord.length) :
    0 ≤ ord.getD k 0 ∧ ord.getD k 0 < (n : Int) := by
  have hmem : ord.getD k 0 ∈ ord := by
    rw [List.getD_eq_getElem _ _ hk]
    exact List.getElem_mem hk
  have hmem2 := hperm.mem_iff.mp hmem
  exact ⟨intRange_nonneg hmem2, intRange_mem_lt hmem2⟩

/-- Two playlist bindings of the same state agree. -/
theorem playerInv_of_pl {s : PlayerState} {pl : List PlaylistEntry}
    (h : s.current_playlist = some pl)
    (h1 : 0 < pl.length → 0 ≤ s.current_playlist_index ∧
      (s.playlist_state ≠ .finished → s.current_playlist_index < (pl.length : Int)))
    (h2 : 0 < pl.length → s.playlist_mode = .shuffle →
      List.Perm s.shuffle_order (intRange pl.length)) :
    PlayerInv s := by
  constructor
  · intro pl' hp' hl'
    obtain rfl : pl = pl' := by rw [h] at hp'; injection hp'
    exact h1 hl'
  · intro pl' hp' hl' hm'
    obtain rfl : pl = pl' := by rw [h] at hp'; injection hp'
    exact h2 hl' hm'

/-- RepeatOne advance replays the current track. -/
theorem advance_r1_eq {s : PlayerState} {pl : List PlaylistEntry}
    (h : s.current_playlist = some pl) (hm : s.playlist_mode = .repeat_one)
    (hn : 0 < pl.length) :
    advance_track s = playTrackSt s := by
  have hlen' : pl.length ≠ 0 := by omega
  simp only [advance_track, h, hm]
  rw [if_neg hlen']

/-- Shuffle advance past the last shuffle position finishes, index untouched. -/
theorem advance_shuffle_some_end_eq {s : PlayerState} {pl : List PlaylistEntry} {pos : Nat}
    (h : s.current_playlist = some pl) (hm : s.playlist_mode = .shuffle)
    (hn : 0 < pl.length)
    (hfind : pyListIndex? s.current_playlist_index s.shuffle_order = some pos)
    (hover : s.shuffle_order.length ≤ pos + 1) :
    advance_track s = { s with playlist_state := .finished } := by
  have hlen' : pl.length ≠ 0 := by omega
  simp only [advance_track, h, hm, hfind]
  rw [if_neg hlen', if_pos hover, if_neg (by simp)]

/-- Shuffle advance inside the order moves to the next shuffle position. -/
theorem advance_shuffle_some_mid_eq {s : PlayerState} {pl : List PlaylistEntry} {pos : Nat}
    (h : s.current_playlist = some pl) (hm : s.playlist_mode = .shuffle)
    (hn : 0 < pl.length)
    (hfind : pyListIndex? s.current_playlist_index s.shuffle_order = some pos)
    (hlt : pos + 1 < s.shuffle_order.length) :
    advance_track s =
      playTrackSt { s with current_playlist_index := s.shuffle_order.getD (pos + 1) 0 } := by
  have hlen' : pl.length ≠ 0 := by omega
  simp only [advance_track, h, hm, hfind]
  rw [if_neg hlen', if_neg (by omega)]

/-- Shuffle advance with the index missing from the order falls back to the
order's first element (or 0 on an empty order). -/
theorem advance_shuffle_none_eq {s : PlayerState} {pl : List PlaylistEntry}
    (h : s.current_playlist = some pl) (hm : s.playlist_mode = .shuffle)
    (hn : 0 < pl.length)
    (hfind : pyListIndex? s.current_playlist_index s.shuffle_order = none) :
    advance_track s =
      playTrackSt { s with current_playlist_index :=
        if s.shuffle_order ≠ [] then s.shuffle_order.getD 0 0 else 0 } := by
  have hlen' : pl.length ≠ 0 := by omega
  simp only [advance_track, h, hm, hfind]
  rw [if_neg hlen']

/-- RepeatAll advance strictly inside the playlist steps the index up. -/
theorem advance_ra_mid_eq {s : PlayerState} {pl : List PlaylistEntry}
    (h : s.current_playlist = some pl) (hm : s.playlist_mode = .repeat_all)
    (h0 : 0 ≤ s.current_playlist_index)
    (h1 : s.current_playlist_index + 1 < (pl.length : Int)) :
    advance_track s = { s with current_playlist_index := s.current_playlist_index + 1,
                               playlist_state := .playing } := by
  have hlen : pl.length ≠ 0 := by omega
  have key : advance_track s = playTrackSt { s with current_playlist_index := s.current_playlist_index + 1 } := by
    simp only [advance_track, h, hm]
    rw [if_neg hlen, if_neg (not_le.mpr h1)]
  rw [key, playTrackSt_valid (p := pl) (by simpa using h) (by simpa using by omega) (by simpa using h1)]

/-- Non-shuffle previous clamps the decremented index at 0. -/
theorem prev_other_eq {s : PlayerState} {pl : List PlaylistEntry}
    (h : s.current_playlist = some pl) (hn : 0 < pl.length)
    (hms : s.playlist_mode ≠ .shuffle) :
    previous_op s = playTrackSt { s with current_playlist_index := max 0 (s.current_playlist_index - 1) } := by
  simp only [previous_op, h]
  rw [if_pos hn, if_neg hms]

/-- Shuffle previous with the index present steps back one shuffle position. -/
theorem prev_shuffle_some_eq {s : PlayerState} {pl : List PlaylistEntry} {pos : Nat}
    (h : s.current_playlist = some pl) (hn : 0 < pl.length)
    (hms : s.playlist_mode = .shuffle)
    (hfind : pyListIndex? s.current_playlist_index s.shuffle_order = some pos) :
    previous_op s = playTrackSt { s with current_playlist_index := s.shuffle_order.getD (pos - 1) 0 } := by
  simp only [previous_op, h]
  rw [if_pos hn, if_pos hms]
  simp only [hfind]

/-- Shuffle previous with the index absent raises before mutating anything. -/
theorem prev_shuffle_none_eq {s : PlayerState} {pl : List PlaylistEntry}
    (h : s.current_playlist = some pl) (hn : 0 < pl.length)
    (hms : s.playlist_mode = .shuffle)
    (hfind : pyListIndex? s.current_playlist_index s.shuffle_order = none) :
    previous_op s = s := by
  simp only [previous_op, h]
  rw [if_pos hn, if_pos hms]
  simp only [hfind]

/-- The fresh controller satisfies the invariant. -/
theorem inv_init : PlayerInv initState := by
  refine ⟨fun pl hp => ?_, fun pl hp => ?_⟩ <;> simp [initState] at hp

/-- `load_playlist` preserves the invariant. -/
theorem inv_load (rng : Nat → Nat) (p : Option (List PlaylistEntry)) (auto : Bool)
    (mode : AVPlaylistMode) (s : PlayerState) (inv : PlayerInv s) :
    PlayerInv (load_playlist rng p auto mode s) := by
  obtain ⟨inv1, inv2⟩ := inv
  cases p with
  | none => exact ⟨inv1, inv2⟩
  | some pl =>
    by_cases hn : 0 < pl.length
    · by_cases hms : mode = .shuffle
      · subst hms
        have hres : load_playlist rng (some pl) auto .shuffle s =
            { s with current_playlist := some pl, auto_play_enabled := auto,
                     playlist_mode := .shuffle, playlist_state := .playing,
                     current_playlist_index := 0,
                     shuffle_order := pyShuffle rng (intRange pl.length) } := by
          simp [load_playlist, generate_shuffle_order, hn, playTrackSt, play_playlist_track]
        rw [hres]
        refine playerInv_of_pl rfl (fun hl => ⟨le_refl 0, fun _ => show (0 : Int) < (pl.length : Int) by exact_mod_cast hn⟩)
          (fun hl hm => pyShuffle_perm rng _)
      · have hres : load_playlist rng (some pl) auto mode s =
            { s with current_playlist := some pl, auto_play_enabled := auto,
                     playlist_mode := mode, playlist_state := .playing,
                     current_playlist_index := 0 } := by
          simp only [load_playlist]
          rw [if_neg hms, if_pos hn]
          simp [playTrackSt, play_playlist_track, hn]
        rw [hres]
        refine playerInv_of_pl rfl (fun hl => ⟨le_refl 0, fun _ => show (0 : Int) < (pl.length : Int) by exact_mod_cast hn⟩)
          (fun hl hm => absurd hm hms)
    · have hres : load_playlist rng (some pl) auto mode s =
          { s with current_playlist := some pl, auto_play_enabled := auto,
                   playlist_mode := mode, playlist_state := .stopped } := by
        simp only [load_playlist]
        rw [if_neg hn]
        by_cases hms : mode = .shuffle
        · subst hms
          rw [if_pos rfl]
          simp [generate_shuffle_order, hn]
        · rw [if_neg hms]
      rw [hres]
      exact playerInv_of_pl rfl (fun hl => absurd hl hn) (fun hl _ => absurd hl hn)

/-- `set_playlist_mode` preserves the invariant. -/
theorem inv_set_mode (rng : Nat → Nat) (mode : AVPlaylistMode) (s : PlayerState)
    (inv : PlayerInv s) : PlayerInv (set_playlist_mode rng mode s) := by
  obtain ⟨inv1, inv2⟩ := inv
  by_cases hms : mode = .shuffle
  · subst hms
    cases hcp : s.current_playlist with
    | none =>
      have hres : set_playlist_mode rng .shuffle s = { s with playlist_mode := .shuffle } := by
        simp [set_playlist_mode, generate_shuffle_order, hcp]
      rw [hres]
      refine ⟨fun pl' hp' hl' => ?_, fun pl' hp' hl' hm' => ?_⟩ <;>
        · have h2 : s.current_playlist = some pl' := hp'
          rw [hcp] at h2
          cases h2
    | some pl =>
      by_cases hn : 0 < pl.length
      · have hres : set_playlist_mode rng .shuffle s =
            { s with playlist_mode := .shuffle,
                     shuffle_order := pyShuffle rng (intRange pl.length) } := by
          simp [set_playlist_mode, generate_shuffle_order, hcp, hn]
        rw [hres]
        exact playerInv_of_pl hcp (fun hl => inv1 pl hcp hl)
          (fun hl hm => pyShuffle_perm rng _)
      · have hres : set_playlist_mode rng .shuffle s = { s with playlist_mode := .shuffle } := by
          simp [set_playlist_mode, generate_shuffle_order, hcp, hn]
        rw [hres]
        exact playerInv_of_pl hcp (fun hl => absurd hl hn) (fun hl _ => absurd hl hn)
  · have hres : set_playlist_mode rng mode s = { s with playlist_mode := mode } := by
      simp [set_playlist_mode, hms]
    rw [hres]
    refine ⟨fun pl' hp' hl' => inv1 pl' hp' hl', fun pl' hp' hl' hm' => absurd hm' hms⟩

/-- `_advance_track` preserves the invariant (on a non-empty bound playlist). -/
theorem inv_advance {s : PlayerState} {pl : List PlaylistEntry} (inv : PlayerInv s)
    (h : s.current_playlist = some pl) (hn : 0 < pl.length) :
    PlayerInv (advance_track s) := by
  obtain ⟨inv1, inv2⟩ := inv
  obtain ⟨h0, hidx⟩ := inv1 pl h hn
  cases hmode : s.playlist_mode with
  | repeat_one =>
    rw [advance_r1_eq h hmode hn]
    by_cases hval : s.current_playlist_index < (pl.length : Int)
    · rw [playTrackSt_valid h h0 hval]
      exact playerInv_of_pl h (fun hl => ⟨h0, fun _ => hval⟩)
        (fun hl hm => inv2 pl h hl hm)
    · rw [playTrackSt_oob h (fun hcon => hval hcon.2)]
      exact ⟨inv1, inv2⟩
  | shuffle =>
    have hperm := inv2 pl h hn hmode
    have hordne : s.shuffle_order ≠ [] := by
      intro he
      have hlen := hperm.length_eq
      rw [he, intRange_length] at hlen
      simp at hlen
      omega
    cases hfind : pyListIndex? s.current_playlist_index s.shuffle_order with
    | some pos =>
      by_cases hover : s.shuffle_order.length ≤ pos + 1
      · rw [advance_shuffle_some_end_eq h hmode hn hfind hover]
        exact playerInv_of_pl h (fun hl => ⟨h0, fun hcon => (hcon rfl).elim⟩)
          (fun hl hm => inv2 pl h hl hm)
      · push_neg at hover
        rw [advance_shuffle_some_mid_eq h hmode hn hfind hover]
        obtain ⟨hge, hlt⟩ := order_elem_valid hperm hover
        rw [playTrackSt_valid
          (s := { s with current_playlist_index := s.shuffle_order.getD (pos + 1) 0 })
          (p := pl) h hge hlt]
        exact playerInv_of_pl h (fun hl => ⟨hge, fun _ => hlt⟩)
          (fun hl hm => inv2 pl h hl hm)
    | none =>
      rw [advance_shuffle_none_eq h hmode hn hfind]
      have h0lt : 0 < s.shuffle_order.length := List.length_pos.mpr hordne
      obtain ⟨hge, hlt⟩ := order_elem_valid hperm h0lt
      rw [if_pos hordne]
      rw [playTrackSt_valid
        (s := { s with current_playlist_index := s.shuffle_order.getD 0 0 })
        (p := pl) h hge hlt]
      exact playerInv_of_pl h (fun hl => ⟨hge, fun _ => hlt⟩)
        (fun hl hm => inv2 pl h hl hm)
  | sequential =>
    by_cases hend : (pl.length : Int) ≤ s.current_playlist_index + 1
    · rw [advance_seq_end h hmode hn hend]
      exact playerInv_of_pl h
        (fun hl => ⟨show (0 : Int) ≤ s.current_playlist_index + 1 by omega,
          fun hcon => (hcon rfl).elim⟩)
        (fun hl hm => inv2 pl h hl hm)
    · push_neg at hend
      rw [advance_seq_mid h hmode h0 hend]
      exact playerInv_of_pl h
        (fun hl => ⟨show (0 : Int) ≤ s.current_playlist_index + 1 by omega, fun _ => hend⟩)
        (fun hl hm => inv2 pl h hl hm)
  | repeat_all =>
    by_cases hend : (pl.length : Int) ≤ s.current_playlist_index + 1
    · rw [advance_repeat_all_end h hmode hn hend]
      exact playerInv_of_pl h
        (fun hl => ⟨le_refl 0, fun _ => show (0 : Int) < (pl.length : Int) by exact_mod_cast hn⟩)
        (fun hl hm => inv2 pl h hl hm)
    · push_neg at hend
      rw [advance_ra_mid_eq h hmode h0 hend]
      exact playerInv_of_pl h
        (fun hl => ⟨show (0 : Int) ≤ s.current_playlist_index + 1 by omega, fun _ => hend⟩)
        (fun hl hm => inv2 pl h hl hm)

/-- `next` preserves the invariant. -/
theorem inv_next (s : PlayerState) (inv : PlayerInv s) : PlayerInv (next_op s) := by
  cases hcp : s.current_playlist with
  | none =>
    have hres : next_op s = s := by simp [next_op, hcp]
    rw [hres]; exact inv
  | some pl =>
    by_cases hn : 0 < pl.length
    · have hres : next_op s = advance_track s := by simp [next_op, hcp, hn]
      rw [hres]; exact inv_advance inv hcp hn
    · have hres : next_op s = s := by simp [next_op, hcp, hn]
      rw [hres]; exact inv

/-- `previous` preserves the invariant. -/
theorem inv_prev (s : PlayerState) (inv : PlayerInv s) : PlayerInv (previous_op s) := by
  obtain ⟨inv1, inv2⟩ := inv
  cases hcp : s.current_playlist with
  | none =>
    have hres : previous_op s = s := by simp [previous_op, hcp]
    rw [hres]; exact ⟨inv1, inv2⟩
  | some pl =>
    by_cases hn : 0 < pl.length
    · obtain ⟨h0, hidx⟩ := inv1 pl hcp hn
      by_cases hms : s.playlist_mode = .shuffle
      · have hperm := inv2 pl hcp hn hms
        cases hfind : pyListIndex? s.current_playlist_index s.shuffle_order with
        | none =>
          rw [prev_shuffle_none_eq hcp hn hms hfind]
          exact ⟨inv1, inv2⟩
        | some pos =>
          rw [prev_shuffle_some_eq hcp hn hms hfind]
          have hpos := pyListIndex?_some_lt hfind
          have hplt : pos - 1 < s.shuffle_order.length := by omega
          obtain ⟨hge, hltv⟩ := order_elem_valid hperm hplt
          rw [playTrackSt_valid
            (s := { s with current_playlist_index := s.shuffle_order.getD (pos - 1) 0 })
            (p := pl) hcp hge hltv]
          exact playerInv_of_pl hcp (fun hl => ⟨hge, fun _ => hltv⟩)
            (fun hl hm => inv2 pl hcp hl hm)
      · rw [prev_other_eq hcp hn hms]
        by_cases hval : max 0 (s.current_playlist_index - 1) < (pl.length : Int)
        · rw [playTrackSt_valid
            (s := { s with current_playlist_index := max 0 (s.current_playlist_index - 1) })
            (p := pl) hcp (le_max_left _ _) hval]
          exact playerInv_of_pl hcp (fun hl => ⟨le_max_left _ _, fun _ => hval⟩)
            (fun hl hm => inv2 pl hcp hl hm)
        · have hfin : s.playlist_state = .finished := by
            by_contra hc
            have hlt := hidx hc
            exact hval (max_lt_iff.mpr ⟨by exact_mod_cast hn, by omega⟩)
          rw [playTrackSt_oob
            (s := { s with current_playlist_index := max 0 (s.current_playlist_index - 1) })
            (p := pl) hcp (fun hcon => hval hcon.2)]
          exact playerInv_of_pl hcp (fun hl => ⟨le_max_left _ _, fun hc => (hc hfin).elim⟩)
            (fun hl hm => inv2 pl hcp hl hm)
    · have hres : previous_op s = s := by simp [previous_op, hcp, hn]
      rw [hres]; exact ⟨inv1, inv2⟩

/-- Every controller operation preserves the invariant. -/
theorem inv_step {s s' : PlayerState} (inv : PlayerInv s) (hstep : PlayerStep s s') :
    PlayerInv s' := by
  cases hstep with
  | load rng p auto mode s => exact inv_load rng p auto mode s inv
  | next s => exact inv_next s inv
  | prev s => exact inv_prev s inv
  | set_mode rng mode s => exact inv_set_mode rng mode s inv

/-- Every reachable controller state satisfies the invariant. -/
theorem inv_reachable {s : PlayerState} (hr : Reachable s) : PlayerInv s := by
  unfold Reachable at hr
  induction hr with
  | refl => exact inv_init
  | tail _ hstep ih => exact inv_step ih hstep

/-- Claim C2 (amended): in every state reachable through controller
operations alone, whenever the bound playlist is non-empty, the playlist
state is not Finished, and `current_index` is non-negative, `current_index`
is a valid index into the bound playlist.  (A Finished-producing advance can
leave the index equal to the length, and loading an empty playlist keeps the
stale index, so those two situations are excluded.) -/
theorem claim_C2 (s : PlayerState) (hr : Reachable s) (pl : List PlaylistEntry)
    (h : s.current_playlist = some pl) (hne : 0 < pl.length)
    (hfin : s.playlist_state ≠ .finished) (_h0 : 0 ≤ s.current_playlist_index) :
    s.current_playlist_index < (pl.length : Int) :=
  ((inv_reachable hr).1 pl h hne).2 hfin

/-- Witness for C2 on the freshly loaded two-entry playlist. -/
theorem claim_C2_witness :
    sLoadedTwo.current_playlist_index < (plTwo.length : Int) :=
  claim_C2 sLoadedTwo (Relation.ReflTransGen.single (PlayerStep.load _ _ _ _ _)) plTwo
    (by decide) (by decide) (by decide) (by decide)

/-- Counterexample to C2 as stated: after loading a one-entry playlist and
calling `next` once, the state is reachable, the index is 1 ≥ 0, yet it is
not a valid index into the one-entry playlist. -/
theorem claim_C2_counterexample :
    Reachable (next_op sLoadedOne) ∧
    (next_op sLoadedOne).current_playlist = some plOne ∧
    0 ≤ (next_op sLoadedOne).current_playlist_index ∧
    ¬((next_op sLoadedOne).current_playlist_index < (plOne.length : Int)) := by
  refine ⟨?_, by decide, by decide, by decide⟩
  exact Relation.ReflTransGen.tail
    (Relation.ReflTransGen.single (PlayerStep.load _ _ _ _ _))
    (PlayerStep.next sLoadedOne)

/-! ## Claim C6: PLS parsing -/

/-- `filterMap` with an if-some body is filter-then-map. -/
theorem filterMap_ite_eq {α β : Type} (p : α → Bool) (f : α → β) :
    ∀ l : List α, (l.filterMap fun i => if p i then some (f i) else none) =
      (l.filter p).map f := by
  intro l
  induction l with
  | nil => rfl
  | cons a t ih =>
    by_cases hp : p a <;> simp [List.filterMap_cons, List.filter_cons, hp, ih]

/-- Claim C6: parsing the concrete `[playlist]` document yields exactly the
two entries in ascending index order, with `a.mp3` carrying title and
duration and `c.mp3` carrying neither; in general the parse produces one
entry per index `i` from 1 up to the maximum `File` index for which a
`File i` key was seen (skipping the rest) with that index's file, title and
length bindings; a `Length` value of `-1` or an unparsable one stores an
absent duration. -/
theorem claim_C6 :
    plsParse "[playlist]\nFile1=a.mp3\nTitle1=Song A\nLength1=180\nFile3=c.mp3\n" =
      [{ location := "a.mp3", title := some "Song A", duration := some 180 },
       { location := "c.mp3" }] ∧
    (∀ content : String,
      plsParse content =
        ((plsIndices (plsScanOf content)).filter
            (fun i => dcontains (plsScanOf content).file_map i)).map
          (fun i =>
            { location := (dget? (plsScanOf content).file_map i).getD ""
              title := dget? (plsScanOf content).title_map i
              duration := (dget? (plsScanOf content).length_map i).getD none })) ∧
    plsLengthValue "-1" = none ∧
    (∀ v : String, pyFloatTrunc? v = none → plsLengthValue v = none) := by
  refine ⟨by decide, ?_, by decide, ?_⟩
  · intro content
    rw [plsParse, plsAssemble, filterMap_ite_eq]
  · intro v hv
    rw [plsLengthValue]
    by_cases h1 : v = "-1"
    · rw [if_pos h1]
    · rw [if_neg h1, hv]

/-- Witness for C6's conditional part at a concrete non-numeric length. -/
theorem claim_C6_witness : plsLengthValue "abc" = none :=
  claim_C6.2.2.2 "abc" (by decide)

/-! ## Claim C10: merge_playlists object identity -/

/-- Replacing the binding of key `k` does not disturb lookups of other keys. -/
theorem dget?_map_replace_ne [DecidableEq K] (t : List (K × V)) (k n : K) (v : V)
    (hnk : n ≠ k) :
    dget? (t.map fun p => if p.1 = k then (k, v) else p) n = dget? t n := by
  induction t with
  | nil => rfl
  | cons a t ih =>
    simp only [List.map_cons]
    by_cases hak : a.1 = k
    · rw [if_pos hak, dget?, dget?]
      rw [if_neg (fun h => hnk h.symm), if_neg (by rw [hak]; exact fun h => hnk h.symm)]
      exact ih
    · rw [if_neg hak, dget?, dget?]
      by_cases han : a.1 = n
      · rw [if_pos han, if_pos han]
      · rw [if_neg han, if_neg han]
        exact ih

/-- Replacing the binding of a present key makes lookup return the new value. -/
theorem dget?_map_replace_self [DecidableEq K] (t : List (K × V)) (k : K) (v : V)
    (hc : dcontains t k = true) :
    dget? (t.map fun p => if p.1 = k then (k, v) else p) k = some v := by
  induction t with
  | nil => simp [dcontains] at hc
  | cons a t ih =>
    simp only [List.map_cons]
    by_cases hak : a.1 = k
    · rw [if_pos hak, dget?, if_pos rfl]
    · rw [if_neg hak, dget?, if_neg hak]
      apply ih
      rw [dcontains] at hc
      simp only [List.any_cons, Bool.or_eq_true, decide_eq_true_eq] at hc
      rcases hc with hc | hc
      · exact absurd hc hak
      · rw [dcontains]
        exact hc

/-- Lookup after a Python dict write. -/
theorem dget?_dinsert [DecidableEq K] (st : List (K × V)) (k n : K) (v : V) :
    dget? (dinsert st k v) n = if n = k then some v else dget? st n := by
  by_cases hc : dcontains st k
  · rw [dinsert, if_pos hc]
    by_cases hnk : n = k
    · subst hnk
      rw [if_pos rfl]
      exact dget?_map_replace_self st n v hc
    · rw [if_neg hnk]
      exact dget?_map_replace_ne st k n v hnk
  · rw [dinsert, if_neg hc]
    induction st with
    | nil =>
      by_cases hnk : n = k
      · rw [if_pos hnk]
        simp only [List.nil_append, dget?]
        rw [if_pos hnk.symm]
      · rw [if_neg hnk]
        simp only [List.nil_append, dget?]
        rw [if_neg (fun h => hnk h.symm)]
    | cons a t ih =>
      have hsplit : ¬ a.1 = k ∧ ¬ dcontains t k = true := by
        rw [dcontains] at hc
        simp only [List.any_cons, Bool.or_eq_true, decide_eq_true_eq, not_or] at hc
        exact ⟨hc.1, by rw [dcontains]; simp only [Bool.not_eq_true] at hc ⊢; exact hc.2⟩
      rw [List.cons_append, dget?]
      by_cases han : a.1 = n
      · have hnk : n ≠ k := fun h => hsplit.1 (han.trans h)
        rw [if_pos han, if_neg hnk, dget?, if_pos han]
      · rw [if_neg han, ih (by simp [hsplit.2])]
        by_cases hnk : n = k
        · rw [if_pos hnk, if_pos hnk]
        · rw [if_neg hnk, if_neg hnk, dget?, if_neg han]

/-- The merge fold only allocates at and above the incoming `next_id`; with
at least one source to fold it returns a freshly allocated identity. -/
theorem mergeFold_spec :
    ∀ (rest : List Nat) (m : MgrState) (acc : Nat),
      (∀ j, j < m.next_id → (mergeFold m acc rest).1.heap j = m.heap j) ∧
      m.next_id ≤ (mergeFold m acc rest).1.next_id ∧
      (rest = [] → mergeFold m acc rest = (m, acc)) ∧
      (rest ≠ [] → m.next_id ≤ (mergeFold m acc rest).2 ∧
        (mergeFold m acc rest).2 < (mergeFold m acc rest).1.next_id) := by
  intro rest
  induction rest with
  | nil =>
    intro m acc
    exact ⟨fun j _ => rfl, le_refl _, fun _ => rfl, fun h => absurd rfl h⟩
  | cons j0 rest ih =>
    intro m acc
    obtain ⟨ih1, ih2, ih3, ih4⟩ := ih (mergeAlloc m acc j0).1 (mergeAlloc m acc j0).2
    have hnextA : (mergeAlloc m acc j0).1.next_id = m.next_id + 1 := rfl
    have hmidA : (mergeAlloc m acc j0).2 = m.next_id := rfl
    have hheapA : ∀ j, j < m.next_id → (mergeAlloc m acc j0).1.heap j = m.heap j := by
      intro j hj
      show heapUpdate m.heap m.next_id _ j = m.heap j
      rw [heapUpdate, if_neg (by omega)]
    have hstep : mergeFold m acc (j0 :: rest) =
        mergeFold (mergeAlloc m acc j0).1 (mergeAlloc m acc j0).2 rest := rfl
    refine ⟨?_, ?_, ?_, ?_⟩
    · intro j hj
      rw [hstep, ih1 j (by omega), hheapA j hj]
    · rw [hstep]
      omega
    · intro hcon; simp at hcon
    · intro _
      rw [hstep]
      by_cases hre : rest = []
      · rw [ih3 hre]
        simp only [hmidA, hnextA]
        omega
      · obtain ⟨hge, hlt⟩ := ih4 hre
        exact ⟨by omega, hlt⟩

/-- Claim C10: with exactly one existing source, `merge_playlists` stores
the source Playlist object itself under the target name (same identity, no
allocation), so a supplied (truthy) title mutates the object still reachable
under the source name while its entries stay intact; with two or more
sources a freshly allocated Playlist is stored and every object reachable
through the old store — in particular every source — keeps its title and
entries. -/
theorem claim_C10 (m : MgrState) (tgt src : String) (t : String) (i : Nat)
    (hsrc : dget? m.store src = some i) (ht : t ≠ "") :
    ((merge_playlists m tgt [src] (some t)).2 = some i ∧
     dget? (merge_playlists m tgt [src] (some t)).1.store tgt = some i ∧
     dget? (merge_playlists m tgt [src] (some t)).1.store src = some i ∧
     (merge_playlists m tgt [src] (some t)).1.next_id = m.next_id ∧
     ((merge_playlists m tgt [src] (some t)).1.heap i).title = t ∧
     ((merge_playlists m tgt [src] (some t)).1.heap i).entries = (m.heap i).entries) ∧
    (∀ (s1 s2 : String) (srest : List String) (title : Option String) (ids : List Nat),
      lookupAll m (s1 :: s2 :: srest) = some ids → MgrWF m →
      ∃ mid, (merge_playlists m tgt (s1 :: s2 :: srest) title).2 = some mid ∧
        m.next_id ≤ mid ∧
        (∀ j, j < m.next_id →
          (merge_playlists m tgt (s1 :: s2 :: srest) title).1.heap j = m.heap j) ∧
        (∀ n j, dget? m.store n = some j → j ≠ mid)) := by
  constructor
  · have hlook : lookupAll m [src] = some [i] := by
      simp [lookupAll, hsrc]
    have hres : merge_playlists m tgt [src] (some t) =
        ({ setTitle m i t with store := dinsert (setTitle m i t).store tgt i }, some i) := by
      rw [merge_playlists, if_neg (by simp), hlook]
      have hcond : pyTruthyOptStr (some t) = true := by simp [pyTruthyOptStr, ht]
      simp only [hcond]
      rfl
    rw [hres]
    refine ⟨rfl, ?_, ?_, rfl, ?_, ?_⟩
    · show dget? (dinsert (setTitle m i t).store tgt i) tgt = some i
      rw [dget?_dinsert, if_pos rfl]
    · show dget? (dinsert (setTitle m i t).store tgt i) src = some i
      rw [dget?_dinsert]
      by_cases hst : src = tgt
      · rw [if_pos hst]
      · rw [if_neg hst]
        exact hsrc
    · show (heapUpdate m.heap i { m.heap i with title := t } i).title = t
      rw [heapUpdate, if_pos rfl]
    · show (heapUpdate m.heap i { m.heap i with title := t } i).entries = (m.heap i).entries
      rw [heapUpdate, if_pos rfl]
  · intro s1 s2 srest title ids hlook hwf
    have h1 : ∃ i1 ids', dget? m.store s1 = some i1 ∧
        lookupAll m (s2 :: srest) = some ids' ∧ ids = i1 :: ids' ∧ ids' ≠ [] := by
      rw [lookupAll] at hlook
      cases hd1 : dget? m.store s1 with
      | none => rw [hd1] at hlook; simp at hlook
      | some i1 =>
        rw [hd1] at hlook
        cases hd2 : lookupAll m (s2 :: srest) with
        | none => rw [hd2] at hlook; simp at hlook
        | some ids' =>
          rw [hd2] at hlook
          simp only at hlook
          refine ⟨i1, ids', rfl, rfl, by injection hlook with hinj; exact hinj.symm, ?_⟩
          · rw [lookupAll] at hd2
            cases hd3 : dget? m.store s2 with
            | none => rw [hd3] at hd2; simp at hd2
            | some i2 =>
              rw [hd3] at hd2
              cases hd4 : lookupAll m srest with
              | none => rw [hd4] at hd2; simp at hd2
              | some irest =>
                rw [hd4] at hd2
                simp only at hd2
                intro hcon
                rw [hcon] at hd2
                simp at hd2
    obtain ⟨i1, ids', hd1, hd2, hids, hne'⟩ := h1
    subst hids
    obtain ⟨f1, f2, f3, f4⟩ := mergeFold_spec ids' m i1
    obtain ⟨hge, hlt⟩ := f4 hne'
    have hlookfull : lookupAll m (s1 :: s2 :: srest) = some (i1 :: ids') := hlook
    have hres : merge_playlists m tgt (s1 :: s2 :: srest) title =
        (let m2 := if pyTruthyOptStr title then
            setTitle (mergeFold m i1 ids').1 (mergeFold m i1 ids').2 (title.getD "")
          else (mergeFold m i1 ids').1
         ({ m2 with store := dinsert m2.store tgt (mergeFold m i1 ids').2 },
          some (mergeFold m i1 ids').2)) := by
      rw [merge_playlists, if_neg (by simp), hlookfull]
    refine ⟨(mergeFold m i1 ids').2, ?_, hge, ?_, ?_⟩
    · rw [hres]
    · intro j hj
      rw [hres]
      show (if pyTruthyOptStr title then
          setTitle (mergeFold m i1 ids').1 (mergeFold m i1 ids').2 (title.getD "")
        else (mergeFold m i1 ids').1).heap j = m.heap j
      by_cases hti : pyTruthyOptStr title
      · rw [if_pos hti]
        show heapUpdate (mergeFold m i1 ids').1.heap (mergeFold m i1 ids').2 _ j = m.heap j
        have hne2 : ¬ j = (mergeFold m i1 ids').2 := by omega
        rw [heapUpdate, if_neg hne2]
        exact f1 j hj
      · rw [if_neg hti]
        exact f1 j hj
    · intro n j hsj
      have := hwf n j hsj
      omega

/-- Witness for C10 on a concrete two-playlist manager. -/
theorem claim_C10_witness :
    ((merge_playlists mgrTwo "merged" ["p1"] (some "Renamed")).2 = some 0 ∧
     dget? (merge_playlists mgrTwo "merged" ["p1"] (some "Renamed")).1.store "merged" = some 0 ∧
     dget? (merge_playlists mgrTwo "merged" ["p1"] (some "Renamed")).1.store "p1" = some 0 ∧
     (merge_playlists mgrTwo "merged" ["p1"] (some "Renamed")).1.next_id = mgrTwo.next_id ∧
     ((merge_playlists mgrTwo "merged" ["p1"] (some "Renamed")).1.heap 0).title = "Renamed" ∧
     ((merge_playlists mgrTwo "merged" ["p1"] (some "Renamed")).1.heap 0).entries =
       (mgrTwo.heap 0).entries) ∧
    (∀ (s1 s2 : String) (srest : List String) (title : Option String) (ids : List Nat),
      lookupAll mgrTwo (s1 :: s2 :: srest) = some ids → MgrWF mgrTwo →
      ∃ mid, (merge_playlists mgrTwo "merged" (s1 :: s2 :: srest) title).2 = some mid ∧
        mgrTwo.next_id ≤ mid ∧
        (∀ j, j < mgrTwo.next_id →
          (merge_playlists mgrTwo "merged" (s1 :: s2 :: srest) title).1.heap j =
            mgrTwo.heap j) ∧
        (∀ n j, dget? mgrTwo.store n = some j → j ≠ mid)) :=
  claim_C10 mgrTwo "merged" "p1" "Renamed" 0 (by decide) (by decide)

/-! ## Claims C8 and C9: the JSON and XSPF codecs -/

/-- Claim C8: parsing the concrete object-shaped document yields exactly one
entry whose metadata mapping is `bitrate = 320`; serializing it back with
the same original text re-emits an object-shaped document whose `tracks`
array holds one track object carrying both `location = "x.mp3"` and
`bitrate = 320` (checked by re-reading the emitted text). -/
theorem claim_C8 :
    jsonCodecParse jsonC8input =
      [{ location := "x.mp3", metadata := .cons "bitrate" (.int 320) .nil }] ∧
    jsonLoads? (jsonCodecSerialize (jsonCodecParse jsonC8input) (some jsonC8input)) =
      some (.obj (.cons "tracks"
        (.arr (.cons (.obj (.cons "location" (.str "x.mp3")
          (.cons "bitrate" (.int 320) .nil))) .nil)) .nil)) := by
  constructor
  · rfl
  · rfl

/-- Claim C9: a malformed document makes both the XSPF parse (through the
`ET.fromstring` oracle) and the JSON parse return the empty entry sequence —
in the embedding both parses are total functions, so no error propagates. -/
theorem claim_C9 :
    (∀ (xmlParse : String → Option XmlElem) (content : String),
      xmlParse content = none → xspfParse xmlParse content = []) ∧
    (∀ content : String, jsonLoads? content = none → jsonCodecParse content = []) := by
  constructor
  · intro xp content h
    rw [xspfParse, h]
  · intro content h
    rw [jsonCodecParse, h]

/-- Witness for C9 on concrete malformed inputs. -/
theorem claim_C9_witness :
    xspfParse (fun _ => none) "<playlist" = [] ∧ jsonCodecParse "\x7b" = [] :=
  ⟨claim_C9.1 (fun _ => none) "<playlist" rfl, claim_C9.2 "\x7b" rfl⟩

/-! ### Lemmas toward C7: stripping and line splitting -/

theorem dropWhile_head_not {p : Char → Bool} {l : List Char} {c : Char}
    (h : (List.dropWhile p l).head? = some c) : p c = false := by
  induction l with
  | nil => simp [List.dropWhile] at h
  | cons a t ih =>
    rw [List.dropWhile_cons] at h
    by_cases hp : p a
    · rw [if_pos hp] at h; exact ih h
    · rw [if_neg hp] at h
      injection h with h
      subst h
      simpa using hp

theorem pyStripCh_last {l : List Char} {c : Char}
    (h : (pyStripCh l).getLast? = some c) : isPySpace c = false := by
  rw [pyStripCh] at h
  rw [List.getLast?_reverse] at h
  exact dropWhile_head_not h

theorem pyStripCh_head {l : List Char} {c : Char}
    (h : (pyStripCh l).head? = some c) : isPySpace c = false := by
  rw [pyStripCh, List.head?_reverse] at h
  rcases List.dropWhile_suffix (l := (l.dropWhile isPySpace).reverse) (p := isPySpace)
    with ⟨pre, hpre⟩
  have hne : (l.dropWhile isPySpace).reverse.dropWhile isPySpace ≠ [] := by
    intro h0; rw [h0] at h; simp at h
  have hr : ((l.dropWhile isPySpace).reverse).getLast? = some c := by
    rw [← hpre, List.getLast?_append_of_ne_nil _ hne]
    exact h
  rw [List.getLast?_reverse] at hr
  exact dropWhile_head_not hr

theorem pyStripCh_noop {l : List Char}
    (h1 : ∀ c, l.head? = some c → isPySpace c = false)
    (h2 : ∀ c, l.getLast? = some c → isPySpace c = false) :
    pyStripCh l = l := by
  have hd : l.dropWhile isPySpace = l := by
    cases l with
    | nil => rfl
    | cons a t => rw [List.dropWhile_cons, if_neg (by simp [h1 a rfl])]
  have hr : l.reverse.dropWhile isPySpace = l.reverse := by
    cases hl : l.reverse with
    | nil => rfl
    | cons a t =>
      have ha : l.getLast? = some a := by
        rw [← List.head?_reverse, hl]; rfl
      rw [List.dropWhile_cons, if_neg (by simp [h2 a ha])]
  rw [pyStripCh, hd, hr, List.reverse_reverse]

theorem pyStripCh_subset {l : List Char} {c : Char} (h : c ∈ pyStripCh l) : c ∈ l := by
  rw [pyStripCh] at h
  rw [List.mem_reverse] at h
  have h2 := (List.dropWhile_sublist (l := (l.dropWhile isPySpace).reverse)
    (p := isPySpace)).subset h
  rw [List.mem_reverse] at h2
  exact (List.dropWhile_sublist (l := l) (p := isPySpace)).subset h2

/-- Unfolding of `splitLinesGo` on a cons cell whose head is not `CR`. -/
theorem slg_cons (acc : List Char) (c : Char) (rest : List Char) (hc : c ≠ '\r') :
    splitLinesGo acc (c :: rest) =
      if isLineBreak c then acc.reverse :: splitLinesGo [] rest
      else splitLinesGo (c :: acc) rest := by
  cases rest with
  | nil => rw [splitLinesGo.eq_3, if_neg hc]
  | cons c2 r2 => rw [splitLinesGo.eq_2, if_neg hc]

theorem slg_crlf (acc rest : List Char) :
    splitLinesGo acc ('\r' :: '\n' :: rest) = acc.reverse :: splitLinesGo [] rest := by
  rw [splitLinesGo.eq_2, if_pos rfl, if_pos rfl]

/-- Unfolding of `splitLinesGo` on a `CR` not followed by `LF`. -/
theorem slg_cr (acc rest : List Char) (h : rest.head? ≠ some '\n') :
    splitLinesGo acc ('\r' :: rest) = acc.reverse :: splitLinesGo [] rest := by
  cases rest with
  | nil => rw [splitLinesGo.eq_3, if_pos rfl]
  | cons c2 r2 =>
    rw [splitLinesGo.eq_2, if_pos rfl, if_neg]
    intro h2
    subst h2
    exact h rfl

theorem slg_nil (acc : List Char) :
    splitLinesGo acc [] = if acc.isEmpty then [] else [acc.reverse] := by
  rw [splitLinesGo.eq_1]

/-- A line-break-free chunk before an inserted `LF` is emitted as one line. -/
theorem slg_append_nl {l : List Char} (rest acc : List Char)
    (hl : ∀ c ∈ l, isLineBreak c = false) :
    splitLinesGo acc (l ++ '\n' :: rest) = (acc.reverse ++ l) :: splitLinesGo [] rest := by
  induction l generalizing acc with
  | nil =>
    rw [List.nil_append, slg_cons acc '\n' rest (by decide)]
    simp [isLineBreak]
  | cons c t ih =>
    have hc : isLineBreak c = false := hl c (List.mem_cons_self c t)
    have hcr : c ≠ '\r' := by
      intro h; subst h; simp [isLineBreak] at hc
    rw [List.cons_append, slg_cons acc c (t ++ '\n' :: rest) hcr, if_neg (by simp [hc])]
    rw [ih (c :: acc) (fun x hx => hl x (List.mem_cons_of_mem c hx))]
    simp

/-- A line-break-free final chunk is emitted as one line (or nothing when
everything is empty). -/
theorem slg_final {l : List Char} (acc : List Char)
    (hl : ∀ c ∈ l, isLineBreak c = false) :
    splitLinesGo acc l =
      if (acc.reverse ++ l).isEmpty then [] else [acc.reverse ++ l] := by
  induction l generalizing acc with
  | nil => rw [slg_nil]; simp
  | cons c t ih =>
    have hc : isLineBreak c = false := hl c (List.mem_cons_self c t)
    have hcr : c ≠ '\r' := by
      intro h; subst h; simp [isLineBreak] at hc
    rw [slg_cons acc c t hcr, if_neg (by simp [hc])]
    rw [ih (c :: acc) (fun x hx => hl x (List.mem_cons_of_mem c hx))]
    simp

/-- Every line of `splitLinesCh` is line-break-free. -/
theorem splitLinesGo_lbfree : ∀ (l acc : List Char),
    (∀ c ∈ acc, isLineBreak c = false) →
    ∀ s ∈ splitLinesGo acc l, ∀ c ∈ s, isLineBreak c = false
  | [], acc, hacc, s, hs => by
    rw [slg_nil] at hs
    split at hs
    · simp at hs
    · rw [List.mem_singleton] at hs
      subst hs
      intro c hc
      exact hacc c (List.mem_reverse.mp hc)
  | c :: rest, acc, hacc, s, hs => by
    by_cases hcr : c = '\r'
    · subst hcr
      have hs2 : s = acc.reverse ∨ ∃ r2, s ∈ splitLinesGo [] r2 ∧ r2.length ≤ rest.length := by
        cases rest with
        | nil =>
          rw [slg_cr acc [] (by simp)] at hs
          rcases List.mem_cons.mp hs with h | h
          · exact Or.inl h
          · exact Or.inr ⟨[], h, by simp⟩
        | cons c2 r2 =>
          by_cases hc2 : c2 = '\n'
          · subst hc2
            rw [slg_crlf] at hs
            rcases List.mem_cons.mp hs with h | h
            · exact Or.inl h
            · exact Or.inr ⟨r2, h, by simp⟩
          · rw [slg_cr acc (c2 :: r2) (by simp [hc2])] at hs
            rcases List.mem_cons.mp hs with h | h
            · exact Or.inl h
            · exact Or.inr ⟨c2 :: r2, h, le_refl _⟩
      rcases hs2 with h | ⟨r2, hmem, hlen⟩
      · subst h; intro x hx; exact hacc x (List.mem_reverse.mp hx)
      · exact splitLinesGo_lbfree r2 [] (by simp) s hmem
    · rw [slg_cons acc c rest hcr] at hs
      split at hs
      · rcases List.mem_cons.mp hs with h | h
        · subst h; intro x hx; exact hacc x (List.mem_reverse.mp hx)
        · exact splitLinesGo_lbfree rest [] (by simp) s h
      · rename_i hlb
        refine splitLinesGo_lbfree rest (c :: acc) ?_ s hs
        intro x hx
        rcases List.mem_cons.mp hx with h | h
        · subst h; simpa using hlb
        · exact hacc x h
termination_by l _ _ _ _ => l.length
decreasing_by
  all_goals simp only [List.length_cons]
  all_goals omega

/-! ### Lemmas toward C7: `posixpath.normpath` is idempotent -/

theorem nfs_skip {slashes : Nat} {acc : List (List Char)} {comp : List Char}
    (h : comp = [] ∨ comp = ['.']) :
    normFoldStep slashes acc comp = acc := by
  rcases h with h | h <;> subst h <;> simp [normFoldStep]

theorem nfs_append {slashes : Nat} {acc : List (List Char)} {comp : List Char}
    (h0 : ¬(comp = [] ∨ comp = ['.']))
    (h : comp ≠ ['.', '.'] ∨ (slashes = 0 ∧ acc = []) ∨
      acc.getLast? = some ['.', '.']) :
    normFoldStep slashes acc comp = acc ++ [comp] := by
  rw [normFoldStep, if_neg (by simpa using h0), if_pos]
  rcases h with h | ⟨h1, h2⟩ | h
  · simp [h]
  · simp [h1, h2]
  · have hne : acc ≠ [] := by
      intro h0'; rw [h0'] at h; simp at h
    simp [h, hne]

theorem nfs_pop {slashes : Nat} {acc : List (List Char)} {comp : List Char}
    (h0 : ¬(comp = [] ∨ comp = ['.']))
    (hdd : comp = ['.', '.'])
    (h1 : ¬(slashes = 0 ∧ acc = []))
    (h2 : acc.getLast? ≠ some ['.', '.']) :
    normFoldStep slashes acc comp = if acc ≠ [] then acc.dropLast else acc := by
  rw [normFoldStep, if_neg (by simpa using h0), if_neg]
  intro hcond
  rw [Bool.or_eq_true, Bool.or_eq_true] at hcond
  rcases hcond with (hA | hB) | hC
  · rw [decide_eq_true_eq] at hA
    exact hA hdd
  · rw [Bool.and_eq_true, decide_eq_true_eq, decide_eq_true_eq] at hB
    exact h1 hB
  · rw [Bool.and_eq_true, decide_eq_true_eq, decide_eq_true_eq] at hC
    exact h2 hC.2

theorem splitCharCh_no_sep (sep : Char) : ∀ (l : List Char),
    ∀ p ∈ splitCharCh sep l, sep ∉ p
  | [], p, hp => by
    rw [splitCharCh] at hp
    rw [List.mem_singleton] at hp
    subst hp
    simp
  | c :: rest, p, hp => by
    rw [splitCharCh] at hp
    split at hp
    · rcases List.mem_cons.mp hp with h | h
      · subst h; simp
      · exact splitCharCh_no_sep sep rest p h
    · rename_i hc
      rcases hS : splitCharCh sep rest with _ | ⟨a, as⟩
      · rw [hS] at hp
        rw [List.mem_singleton] at hp
        subst hp
        simp only [List.mem_singleton]
        exact fun h => hc h.symm
      · rw [hS] at hp
        rcases List.mem_cons.mp hp with h | h
        · subst h
          intro hmem
          rcases List.mem_cons.mp hmem with h | h
          · exact hc h.symm
          · exact splitCharCh_no_sep sep rest a (hS ▸ List.mem_cons_self a as) h
        · exact splitCharCh_no_sep sep rest p (hS ▸ List.mem_cons_of_mem a h)

theorem splitCharCh_chars (sep : Char) : ∀ (l : List Char),
    ∀ p ∈ splitCharCh sep l, ∀ c ∈ p, c ∈ l
  | [], p, hp => by
    rw [splitCharCh] at hp
    rw [List.mem_singleton] at hp
    subst hp
    simp
  | c0 :: rest, p, hp => by
    rw [splitCharCh] at hp
    split at hp
    · rcases List.mem_cons.mp hp with h | h
      · subst h; simp
      · intro c hc
        exact List.mem_cons_of_mem c0 (splitCharCh_chars sep rest p h c hc)
    · rcases hS : splitCharCh sep rest with _ | ⟨a, as⟩
      · rw [hS] at hp
        rw [List.mem_singleton] at hp
        subst hp
        intro c hc
        rw [List.mem_singleton] at hc
        rw [hc]
        exact List.mem_cons_self c0 rest
      · rw [hS] at hp
        rcases List.mem_cons.mp hp with h | h
        · subst h
          intro c hc
          rcases List.mem_cons.mp hc with h | h
          · rw [h]; exact List.mem_cons_self c0 rest
          · exact List.mem_cons_of_mem c0
              (splitCharCh_chars sep rest a (hS ▸ List.mem_cons_self a as) c h)
        · intro c hc
          exact List.mem_cons_of_mem c0
            (splitCharCh_chars sep rest p (hS ▸ List.mem_cons_of_mem a h) c hc)

theorem splitCharCh_no_sep_id {sep : Char} : ∀ {a : List Char}, sep ∉ a →
    splitCharCh sep a = [a]
  | [], _ => rfl
  | c :: t, h => by
    rw [splitCharCh, if_neg (fun hc => h (by rw [← hc]; exact List.mem_cons_self c t))]
    rw [splitCharCh_no_sep_id (fun hm => h (List.mem_cons_of_mem c hm))]

theorem splitCharCh_append_sep {sep : Char} : ∀ {a : List Char} (t : List Char), sep ∉ a →
    splitCharCh sep (a ++ sep :: t) = a :: splitCharCh sep t
  | [], t, _ => by
    rw [List.nil_append, splitCharCh, if_pos rfl]
  | c :: a', t, h => by
    rw [List.cons_append, splitCharCh,
      if_neg (fun hc => h (by rw [← hc]; exact List.mem_cons_self c a'))]
    rw [splitCharCh_append_sep t (fun hm => h (List.mem_cons_of_mem c hm))]

theorem splitCharCh_joinChar {sep : Char} : ∀ {cs : List (List Char)}, cs ≠ [] →
    (∀ p ∈ cs, sep ∉ p) → splitCharCh sep (joinChar sep cs) = cs
  | [], h, _ => absurd rfl h
  | [a], _, hp => by
    rw [joinChar]
    exact splitCharCh_no_sep_id (hp a (List.mem_singleton_self a))
  | a :: b :: rest, _, hp => by
    rw [joinChar.eq_3 _ _ _ (by simp)]
    rw [splitCharCh_append_sep _ (hp a (List.mem_cons_self a _))]
    rw [splitCharCh_joinChar (by simp) (fun p hmem => hp p (List.mem_cons_of_mem a hmem))]

theorem joinChar_chars {sep : Char} : ∀ {cs : List (List Char)} {c : Char},
    c ∈ joinChar sep cs → c = sep ∨ ∃ p ∈ cs, c ∈ p
  | [], c, h => by simp [joinChar] at h
  | [a], c, h => by
    rw [joinChar] at h
    exact Or.inr ⟨a, List.mem_singleton_self a, h⟩
  | a :: b :: rest, c, h => by
    rw [joinChar.eq_3 _ _ _ (by simp)] at h
    rcases List.mem_append.mp h with h | h
    · exact Or.inr ⟨a, List.mem_cons_self a _, h⟩
    · rcases List.mem_cons.mp h with h | h
      · exact Or.inl h
      · rcases joinChar_chars h with h | ⟨p, hp, hc⟩
        · exact Or.inl h
        · exact Or.inr ⟨p, List.mem_cons_of_mem a hp, hc⟩

theorem nfs_sub {slashes : Nat} {acc : List (List Char)} {comp x : List Char}
    (h : x ∈ normFoldStep slashes acc comp) : x ∈ acc ∨ x = comp := by
  by_cases h0 : comp = [] ∨ comp = ['.']
  · rw [nfs_skip h0] at h
    exact Or.inl h
  · by_cases h1 : comp ≠ ['.', '.'] ∨ (slashes = 0 ∧ acc = []) ∨
      acc.getLast? = some ['.', '.']
    · rw [nfs_append h0 h1] at h
      rcases List.mem_append.mp h with h | h
      · exact Or.inl h
      · rw [List.mem_singleton] at h
        exact Or.inr h
    · rcases not_or.mp h1 with ⟨ha, hb⟩
      rcases not_or.mp hb with ⟨hb1, hb2⟩
      rw [not_not] at ha
      rw [nfs_pop h0 ha hb1 hb2] at h
      split at h
      · exact Or.inl ((List.dropLast_sublist acc).subset h)
      · exact Or.inl h

theorem normComps_fold_mem {slashes : Nat} : ∀ (comps : List (List Char))
    (acc : List (List Char)) (x : List Char),
    x ∈ List.foldl (normFoldStep slashes) acc comps → x ∈ acc ∨ x ∈ comps
  | [], _, _, h => Or.inl h
  | c :: rest, acc, x, h => by
    rw [List.foldl_cons] at h
    rcases normComps_fold_mem rest (normFoldStep slashes acc c) x h with h | h
    · rcases nfs_sub h with h | h
      · exact Or.inl h
      · subst h
        exact Or.inr (List.mem_cons_self x rest)
    · exact Or.inr (List.mem_cons_of_mem c h)

theorem normComps_fold_ok {slashes : Nat} : ∀ (comps : List (List Char))
    (acc : List (List Char)),
    (∀ p ∈ comps, '/' ∉ p) → (∀ x ∈ acc, compOK x) →
    ∀ x ∈ List.foldl (normFoldStep slashes) acc comps, compOK x
  | [], _, _, hacc, x, h => hacc x h
  | c :: rest, acc, hcomps, hacc, x, h => by
    rw [List.foldl_cons] at h
    refine normComps_fold_ok rest (normFoldStep slashes acc c)
      (fun p hp => hcomps p (List.mem_cons_of_mem c hp)) ?_ x h
    intro y hy
    rcases nfs_sub hy with hm | hm
    · exact hacc y hm
    · subst hm
      by_cases h0 : y = [] ∨ y = ['.']
      · rw [nfs_skip h0] at hy
        exact hacc y hy
      · rcases not_or.mp h0 with ⟨h01, h02⟩
        exact ⟨h01, h02, hcomps y (List.mem_cons_self y rest)⟩

theorem ddPre_append_nondd : ∀ {l : List (List Char)} {x : List Char},
    ddPre l → x ≠ ['.', '.'] → ddPre (l ++ [x])
  | [], x, _, hx => by
    rw [List.nil_append]
    rw [ddPre, if_neg hx]
    simp
  | c :: rest, x, h, hx => by
    rw [List.cons_append]
    rw [ddPre] at h ⊢
    by_cases hc : c = ['.', '.']
    · rw [if_pos hc] at h ⊢
      exact ddPre_append_nondd h hx
    · rw [if_neg hc] at h ⊢
      intro hmem
      rcases List.mem_append.mp hmem with hm | hm
      · exact h hm
      · rw [List.mem_singleton] at hm
        exact hx hm.symm

theorem ddPre_all : ∀ {l : List (List Char)}, (∀ x ∈ l, x = ['.', '.']) → ddPre l
  | [], _ => trivial
  | c :: rest, h => by
    rw [ddPre, if_pos (h c (List.mem_cons_self c rest))]
    exact ddPre_all fun x hx => h x (List.mem_cons_of_mem c hx)

theorem ddPre_last_dd : ∀ {l : List (List Char)}, ddPre l →
    l.getLast? = some ['.', '.'] → ∀ x ∈ l, x = ['.', '.']
  | [], _, hl, x, hx => by simp at hl
  | c :: rest, h, hl, x, hx => by
    rw [ddPre] at h
    cases hrest : rest with
    | nil =>
      subst hrest
      simp at hl
      rw [List.mem_singleton] at hx
      rw [hx, hl]
    | cons b bs =>
      have hlast : rest.getLast? = some ['.', '.'] := by
        subst hrest
        rw [List.getLast?_cons_cons] at hl
        exact hl
      by_cases hc : c = ['.', '.']
      · rw [if_pos hc] at h
        rcases List.mem_cons.mp hx with hx | hx
        · rw [hx, hc]
        · exact ddPre_last_dd h hlast x hx
      · rw [if_neg hc] at h
        exact absurd (List.mem_of_mem_getLast? hlast) h

theorem ddPre_dropLast : ∀ {l : List (List Char)}, ddPre l → ddPre l.dropLast
  | [], _ => trivial
  | [c], _ => trivial
  | c :: b :: bs, h => by
    rw [List.dropLast_cons₂]
    rw [ddPre] at h ⊢
    by_cases hc : c = ['.', '.']
    · rw [if_pos hc] at h ⊢
      exact ddPre_dropLast h
    · rw [if_neg hc] at h ⊢
      intro hmem
      exact h ((List.dropLast_sublist (b :: bs)).subset hmem)

theorem ddPre_split : ∀ {l1 : List (List Char)} (l2 : List (List Char)),
    ddPre (l1 ++ ['.', '.'] :: l2) → ∀ x ∈ l1, x = ['.', '.']
  | [], _, _, x, hx => by simp at hx
  | a :: t, l2, h, x, hx => by
    rw [List.cons_append, ddPre] at h
    by_cases ha : a = ['.', '.']
    · rw [if_pos ha] at h
      rcases List.mem_cons.mp hx with hx | hx
      · rw [hx, ha]
      · exact ddPre_split l2 h x hx
    · rw [if_neg ha] at h
      exact absurd (List.mem_append.mpr (Or.inr (List.mem_cons_self _ l2))) h

theorem all_dd_getLast? {l : List (List Char)} (hne : l ≠ [])
    (h : ∀ x ∈ l, x = ['.', '.']) : l.getLast? = some ['.', '.'] := by
  have := List.getLast?_eq_getLast l hne
  rw [this]
  exact congrArg some (h _ (List.getLast_mem hne))

theorem normComps_fold_dd (slashes : Nat) : ∀ (comps acc : List (List Char)),
    ddPre acc → (slashes ≠ 0 → ['.', '.'] ∉ acc) →
    ddPre (List.foldl (normFoldStep slashes) acc comps) ∧
      (slashes ≠ 0 → ['.', '.'] ∉ List.foldl (normFoldStep slashes) acc comps)
  | [], _, h1, h2 => ⟨h1, h2⟩
  | c :: rest, acc, h1, h2 => by
    rw [List.foldl_cons]
    have key : ddPre (normFoldStep slashes acc c) ∧
        (slashes ≠ 0 → ['.', '.'] ∉ normFoldStep slashes acc c) := by
      by_cases h0 : c = [] ∨ c = ['.']
      · rw [nfs_skip h0]
        exact ⟨h1, h2⟩
      · by_cases hc : c = ['.', '.']
        · by_cases hA : (slashes = 0 ∧ acc = []) ∨ acc.getLast? = some ['.', '.']
          · rw [nfs_append h0 (Or.inr hA)]
            constructor
            · rcases hA with ⟨hs, hacc⟩ | hA
              · subst hacc
                subst hc
                rw [List.nil_append, ddPre, if_pos rfl]
                trivial
              · refine ddPre_all fun x hx => ?_
                rcases List.mem_append.mp hx with hx | hx
                · exact ddPre_last_dd h1 hA x hx
                · rw [List.mem_singleton] at hx
                  rw [hx, hc]
            · intro hs _
              rcases hA with ⟨hs0, _⟩ | hA
              · exact hs hs0
              · exact h2 hs (List.mem_of_mem_getLast? hA)
          · rcases not_or.mp hA with ⟨hA1, hA2⟩
            rw [nfs_pop h0 hc hA1 hA2]
            constructor
            · split
              · exact ddPre_dropLast h1
              · exact h1
            · intro hs hmem
              refine h2 hs ?_
              split at hmem
              · exact (List.dropLast_sublist acc).subset hmem
              · exact hmem
        · rw [nfs_append h0 (Or.inl hc)]
          constructor
          · exact ddPre_append_nondd h1 hc
          · intro hs hmem
            rcases List.mem_append.mp hmem with hm | hm
            · exact h2 hs hm
            · rw [List.mem_singleton] at hm
              exact hc hm.symm
    exact normComps_fold_dd slashes rest _ key.1 key.2

theorem normFold_id (slashes : Nat) : ∀ (post acc : List (List Char)),
    (∀ x ∈ acc ++ post, compOK x) → ddPre (acc ++ post) →
    (slashes ≠ 0 → ['.', '.'] ∉ acc ++ post) →
    List.foldl (normFoldStep slashes) acc post = acc ++ post
  | [], acc, _, _, _ => by rw [List.foldl_nil, List.append_nil]
  | c :: rest, acc, hok, hdd, hs => by
    have hcmem : c ∈ acc ++ c :: rest :=
      List.mem_append.mpr (Or.inr (List.mem_cons_self c rest))
    have hcok : compOK c := hok c hcmem
    have h0 : ¬(c = [] ∨ c = ['.']) := by
      rintro (h | h)
      · exact hcok.1 h
      · exact hcok.2.1 h
    have happ : normFoldStep slashes acc c = acc ++ [c] := by
      by_cases hc : c = ['.', '.']
      · by_cases hsz : slashes = 0
        · by_cases hacc : acc = []
          · exact nfs_append h0 (Or.inr (Or.inl ⟨hsz, hacc⟩))
          · have hall : ∀ x ∈ acc, x = ['.', '.'] := by
              intro x hx
              refine ddPre_split rest ?_ x hx
              rw [← hc]
              exact hdd
            exact nfs_append h0 (Or.inr (Or.inr (all_dd_getLast? hacc hall)))
        · refine absurd ?_ (hs hsz)
          rw [← hc]
          exact hcmem
      · exact nfs_append h0 (Or.inl hc)
    rw [List.foldl_cons, happ]
    have hres : (acc ++ [c]) ++ rest = acc ++ c :: rest := by
      rw [List.append_assoc, List.singleton_append]
    rw [normFold_id slashes rest (acc ++ [c]) (by rw [hres]; exact hok)
      (by rw [hres]; exact hdd) (by rw [hres]; exact hs)]
    rw [hres]

theorem normFoldStep_nil_comp (slashes : Nat) (acc : List (List Char)) :
    normFoldStep slashes acc [] = acc := nfs_skip (Or.inl rfl)

theorem foldl_replicate_nil (slashes n : Nat) (acc : List (List Char)) :
    List.foldl (normFoldStep slashes) acc (List.replicate n []) = acc := by
  induction n generalizing acc with
  | zero => rfl
  | succ k ih =>
    rw [List.replicate_succ, List.foldl_cons, normFoldStep_nil_comp]
    exact ih acc

theorem joinChar_head (sep x : Char) (c1 : List Char) (cs : List (List Char))
    (hx : c1.head? = some x) :
    (joinChar sep (c1 :: cs)).head? = some x := by
  cases cs with
  | nil => rw [joinChar.eq_2]; exact hx
  | cons b bs =>
    rw [joinChar.eq_3 _ _ _ (by simp)]
    cases c1 with
    | nil => simp at hx
    | cons y t =>
      rw [List.head?_cons] at hx
      simpa using hx

theorem splitCharCh_sep_cons (sep : Char) (l : List Char) :
    splitCharCh sep (sep :: l) = [] :: splitCharCh sep l := by
  rw [splitCharCh, if_pos rfl]

theorem initialSlashes_cases (l : List Char) :
    initialSlashes l = 0 ∨ initialSlashes l = 1 ∨ initialSlashes l = 2 := by
  rw [initialSlashes]
  split
  · split
    · right; right; rfl
    · right; left; rfl
  · left; rfl

/-- Unfolding of `normpathCh` on a nonempty path. -/
theorem normpathCh_eq (p : List Char) (hp : p ≠ []) :
    normpathCh p =
      if List.replicate (initialSlashes p) '/' ++
          joinChar '/' (normComps (initialSlashes p) (splitCharCh '/' p)) = [] then ['.']
      else List.replicate (initialSlashes p) '/' ++
        joinChar '/' (normComps (initialSlashes p) (splitCharCh '/' p)) := by
  rw [normpathCh, if_neg hp]

/-- A path already produced by the component loop is a fixed point of
`posixpath.normpath`. -/
theorem normpath_out_fixed (s : Nat) (cs : List (List Char)) (hs : s ≤ 2)
    (hne : cs ≠ []) (hok : ∀ x ∈ cs, compOK x) (hdd : ddPre cs)
    (hddz : s ≠ 0 → ['.', '.'] ∉ cs) :
    normpathCh (List.replicate s '/' ++ joinChar '/' cs) =
      List.replicate s '/' ++ joinChar '/' cs := by
  obtain ⟨c1, cs', rfl⟩ : ∃ c1 cs', cs = c1 :: cs' := by
    cases cs with
    | nil => exact absurd rfl hne
    | cons a b => exact ⟨a, b, rfl⟩
  obtain ⟨hne1, _, hsl1⟩ := hok c1 (List.mem_cons_self _ _)
  obtain ⟨x, t, rfl⟩ : ∃ x t, c1 = x :: t := by
    cases c1 with
    | nil => exact absurd rfl hne1
    | cons a b => exact ⟨a, b, rfl⟩
  have hx : x ≠ '/' := fun h => hsl1 (by rw [h]; exact List.mem_cons_self _ _)
  have hJhead : (joinChar '/' ((x :: t) :: cs')).head? = some x :=
    joinChar_head '/' x (x :: t) cs' rfl
  obtain ⟨J, hJ⟩ : ∃ J, joinChar '/' ((x :: t) :: cs') = x :: J := by
    cases hJm : joinChar '/' ((x :: t) :: cs') with
    | nil => rw [hJm] at hJhead; simp at hJhead
    | cons y u =>
      rw [hJm, List.head?_cons] at hJhead
      injection hJhead with hy
      exact ⟨u, by rw [hy]⟩
  have hpre1 : isPre ['/'] (x :: J) = false := by
    simp only [isPre, Bool.and_eq_true, Bool.and_eq_false_iff]
    left
    simp only [decide_eq_false_iff_not]
    exact fun h => hx h.symm
  have hout_ne : List.replicate s '/' ++ joinChar '/' ((x :: t) :: cs') ≠ [] := by
    rw [hJ]
    intro hcontra
    have := congrArg List.length hcontra
    simp at this
  have hsplit_join : splitCharCh '/' (joinChar '/' ((x :: t) :: cs')) = (x :: t) :: cs' :=
    splitCharCh_joinChar (by simp) (fun q hq hmem => (hok q hq).2.2 hmem)
  have hfold : List.foldl (normFoldStep s) [] ((x :: t) :: cs') = (x :: t) :: cs' := by
    have := normFold_id s ((x :: t) :: cs') [] (by simpa using hok)
      (by simpa using hdd) (by simpa using hddz)
    simpa using this
  rw [normpathCh_eq _ hout_ne]
  have hIS : initialSlashes (List.replicate s '/' ++ joinChar '/' ((x :: t) :: cs')) = s := by
    interval_cases s
    · rw [hJ]
      simp only [List.replicate_zero, List.nil_append]
      rw [initialSlashes, if_neg (by rw [hpre1]; simp)]
    · rw [hJ]
      rw [show List.replicate 1 '/' = ['/'] from rfl]
      rw [List.singleton_append]
      have hpre2 : isPre ['/', '/'] ('/' :: x :: J) = false := by
        rw [show isPre ['/', '/'] ('/' :: x :: J) =
          (decide (('/' : Char) = '/') && isPre ['/'] (x :: J)) from rfl, hpre1]
        simp
      rw [initialSlashes, if_pos (by simp [isPre]), if_neg (by rw [hpre2]; simp)]
    · rw [hJ]
      rw [show List.replicate 2 '/' = ['/', '/'] from rfl]
      rw [show (['/', '/'] : List Char) ++ x :: J = '/' :: '/' :: x :: J from rfl]
      have hpre3 : isPre ['/', '/', '/'] ('/' :: '/' :: x :: J) = false := by
        rw [show isPre ['/', '/', '/'] ('/' :: '/' :: x :: J) =
          (decide (('/' : Char) = '/') &&
            (decide (('/' : Char) = '/') && isPre ['/'] (x :: J))) from rfl, hpre1]
        simp
      have hpre4 : isPre ['/', '/'] ('/' :: '/' :: x :: J) = true := by
        simp [isPre]
      rw [initialSlashes, if_pos (by simp [isPre]), if_pos (by rw [hpre3, hpre4]; rfl)]
  have hSplit : splitCharCh '/' (List.replicate s '/' ++ joinChar '/' ((x :: t) :: cs')) =
      List.replicate s [] ++ (x :: t) :: cs' := by
    interval_cases s
    · simpa using hsplit_join
    · rw [show List.replicate 1 '/' = ['/'] from rfl]
      rw [List.singleton_append, splitCharCh_sep_cons, hsplit_join]
      rfl
    · rw [show List.replicate 2 '/' = ['/', '/'] from rfl]
      rw [show (['/', '/'] : List Char) ++ joinChar '/' ((x :: t) :: cs') =
        '/' :: '/' :: joinChar '/' ((x :: t) :: cs') from rfl]
      rw [splitCharCh_sep_cons, splitCharCh_sep_cons, hsplit_join]
      rfl
  rw [hIS, hSplit]
  have hNC : normComps s (List.replicate s [] ++ (x :: t) :: cs') = (x :: t) :: cs' := by
    rw [normComps, List.foldl_append, foldl_replicate_nil]
    exact hfold
  rw [hNC]
  rw [if_neg hout_ne]

/-- The possible shapes of a `posixpath.normpath` result. -/
theorem normpathCh_shape (p : List Char) :
    normpathCh p = ['.'] ∨ normpathCh p = ['/'] ∨ normpathCh p = ['/', '/'] ∨
    ∃ s cs, s ≤ 2 ∧ cs ≠ [] ∧ (∀ x ∈ cs, compOK x) ∧ ddPre cs ∧
      (s ≠ 0 → ['.', '.'] ∉ cs) ∧
      normpathCh p = List.replicate s '/' ++ joinChar '/' cs := by
  by_cases hp : p = []
  · subst hp
    exact Or.inl rfl
  · have hok : ∀ x ∈ normComps (initialSlashes p) (splitCharCh '/' p), compOK x :=
      normComps_fold_ok _ [] (fun q hq => splitCharCh_no_sep '/' p q hq) (by simp)
    have hdd0 := normComps_fold_dd (initialSlashes p) (splitCharCh '/' p) []
      trivial (by simp)
    have hdd1 : ddPre (normComps (initialSlashes p) (splitCharCh '/' p)) := hdd0.1
    have hdd2 : initialSlashes p ≠ 0 →
        ['.', '.'] ∉ normComps (initialSlashes p) (splitCharCh '/' p) := hdd0.2
    rw [normpathCh_eq p hp]
    by_cases hpath : List.replicate (initialSlashes p) '/' ++
        joinChar '/' (normComps (initialSlashes p) (splitCharCh '/' p)) = []
    · rw [if_pos hpath]
      exact Or.inl rfl
    · rw [if_neg hpath]
      by_cases hnil : normComps (initialSlashes p) (splitCharCh '/' p) = []
      · rw [hnil] at hpath ⊢
        rw [show joinChar '/' ([] : List (List Char)) = [] from rfl, List.append_nil]
          at hpath ⊢
        rcases initialSlashes_cases p with h | h | h <;> rw [h] at hpath ⊢
        · simp at hpath
        · exact Or.inr (Or.inl rfl)
        · exact Or.inr (Or.inr (Or.inl rfl))
      · obtain ⟨c1, cs', hcs⟩ : ∃ c1 cs',
            normComps (initialSlashes p) (splitCharCh '/' p) = c1 :: cs' := by
          cases h : normComps (initialSlashes p) (splitCharCh '/' p) with
          | nil => exact absurd h hnil
          | cons a b => exact ⟨a, b, rfl⟩
        rw [hcs] at hok hdd1 hdd2 ⊢
        refine Or.inr (Or.inr (Or.inr ⟨initialSlashes p, c1 :: cs', ?_, by simp, hok,
          hdd1, hdd2, rfl⟩))
        rcases initialSlashes_cases p with h | h | h <;> omega

theorem normpathCh_idem (p : List Char) : normpathCh (normpathCh p) = normpathCh p := by
  rcases normpathCh_shape p with h | h | h | ⟨s, cs, hs, hne, hok, hdd, hddz, h⟩ <;> rw [h]
  · rfl
  · rfl
  · rfl
  · exact normpath_out_fixed s cs hs hne hok hdd hddz

theorem normalize_path_idem (s : String) :
    normalize_path (normalize_path s) = normalize_path s := by
  rw [normalize_path]
  by_cases h2 : isHttpUrl (normalize_path s).data
  · rw [if_pos h2]
  · rw [if_neg h2]
    rw [normalize_path] at h2 ⊢
    by_cases h1 : isHttpUrl s.data
    · rw [if_pos h1] at h2
      exact absurd h1 h2
    · rw [if_neg h1]
      rw [normpath, normpath]
      exact congrArg String.mk (normpathCh_idem s.data)

/-- Characters of a normalised path come from the input, a separator, or a
dot. -/
theorem normpathCh_chars {p : List Char} {c : Char} (h : c ∈ normpathCh p) :
    c ∈ p ∨ c = '/' ∨ c = '.' := by
  by_cases hp : p = []
  · subst hp
    rw [show normpathCh [] = ['.'] from rfl, List.mem_singleton] at h
    exact Or.inr (Or.inr h)
  · rw [normpathCh_eq p hp] at h
    split at h
    · rw [List.mem_singleton] at h
      exact Or.inr (Or.inr h)
    · rcases List.mem_append.mp h with h | h
      · exact Or.inr (Or.inl (List.eq_of_mem_replicate h))
      · rcases joinChar_chars h with h | ⟨q, hq, hc⟩
        · exact Or.inr (Or.inl h)
        · rcases normComps_fold_mem _ [] q hq with h0 | h0
          · simp at h0
          · exact Or.inl (splitCharCh_chars '/' p q h0 c hc)

theorem normalize_path_chars {s : String} {c : Char}
    (h : c ∈ (normalize_path s).data) : c ∈ s.data ∨ c = '/' ∨ c = '.' := by
  rw [normalize_path] at h
  split at h
  · exact Or.inl h
  · exact normpathCh_chars h

/-! ### Lemmas toward C7: `int(float(str(d)))` round-trips -/

theorem digitChar_props {k : Nat} (h : k < 10) :
    (digitChar k).isDigit = true ∧ isPySpace (digitChar k) = false ∧
    isLineBreak (digitChar k) = false ∧ digitChar k ≠ ',' ∧ digitChar k ≠ '.' ∧
    digitChar k ≠ 'e' ∧ digitChar k ≠ 'E' ∧ digitChar k ≠ '_' ∧
    Char.toLower (digitChar k) = digitChar k ∧ digitChar k ≠ '+' ∧
    digitChar k ≠ '-' ∧ digitChar k ≠ 'i' ∧ digitChar k ≠ 'n' ∧
    digitChar k ≠ '#' ∧ digitChar k ≠ '/' := by
  interval_cases k <;> exact ⟨rfl, rfl, rfl, by decide, by decide, by decide, by decide,
    by decide, by decide, by decide, by decide, by decide, by decide, by decide, by decide⟩

theorem digitChar_val {k : Nat} (h : k < 10) : (digitChar k).toNat - 48 = k := by
  interval_cases k <;> rfl

theorem pyStripCh_noop_of_all {l : List Char}
    (h : ∀ c ∈ l, isPySpace c = false) : pyStripCh l = l :=
  pyStripCh_noop (fun c hc => h c (List.mem_of_mem_head? hc))
    (fun c hc => h c (List.mem_of_mem_getLast? hc))

theorem digitsUGo_digits : ∀ (l : List Char) (acc n : Nat),
    (∀ c ∈ l, c.isDigit = true ∧ c ≠ '_') →
    digitsUVal?.digitsUGo acc n l =
      some (l.foldl (fun a c => a * 10 + (c.toNat - 48)) acc, n + l.length)
  | [], acc, n, _ => by simp [digitsUVal?.digitsUGo]
  | c :: rest, acc, n, h => by
    have hd := (h c (List.mem_cons_self c rest)).1
    have hu := (h c (List.mem_cons_self c rest)).2
    have hrec := digitsUGo_digits rest (acc * 10 + (c.toNat - 48)) (n + 1)
      (fun x hx => h x (List.mem_cons_of_mem c hx))
    have hstep : digitsUVal?.digitsUGo acc n (c :: rest) =
        digitsUVal?.digitsUGo (acc * 10 + (c.toNat - 48)) (n + 1) rest := by
      cases rest with
      | nil => rw [digitsUVal?.digitsUGo.eq_3, if_neg hu, if_pos hd]
      | cons c2 rest2 => rw [digitsUVal?.digitsUGo.eq_2, if_neg hu, if_pos hd]
    rw [hstep, hrec]
    simp only [List.foldl_cons, List.length_cons]
    have harith : n + (rest.length + 1) = n + 1 + rest.length := by omega
    rw [harith]

theorem natDigitsGo_spec : ∀ (fuel n : Nat), n < fuel →
    natDigitsGo fuel n ≠ [] ∧
    (∀ c ∈ natDigitsGo fuel n, ∃ k, k < 10 ∧ c = digitChar k) ∧
    (natDigitsGo fuel n).foldl (fun a c => a * 10 + (c.toNat - 48)) 0 = n
  | 0, n, h => absurd h (Nat.not_lt_zero n)
  | fuel + 1, n, h => by
    rw [natDigitsGo]
    by_cases h10 : n < 10
    · rw [if_pos h10]
      refine ⟨by simp, ?_, ?_⟩
      · intro c hc
        rw [List.mem_singleton] at hc
        exact ⟨n, h10, hc⟩
      · rw [List.foldl_cons, List.foldl_nil]
        rw [digitChar_val h10]
        omega
    · rw [if_neg h10]
      have hlt : n / 10 < fuel := by
        have hd : n / 10 < n := Nat.div_lt_self (by omega) (by omega)
        omega
      obtain ⟨hne, hdig, hval⟩ := natDigitsGo_spec fuel (n / 10) hlt
      refine ⟨by simp, ?_, ?_⟩
      · intro c hc
        rcases List.mem_append.mp hc with hc | hc
        · exact hdig c hc
        · rw [List.mem_singleton] at hc
          exact ⟨n % 10, Nat.mod_lt n (by omega), hc⟩
      · rw [List.foldl_append, hval, List.foldl_cons, List.foldl_nil]
        rw [digitChar_val (Nat.mod_lt n (by omega))]
        omega

theorem natDigits_ne_nil (m : Nat) : natDigits m ≠ [] :=
  (natDigitsGo_spec (m + 1) m (Nat.lt_succ_self m)).1

theorem natDigits_chars (m : Nat) :
    ∀ c ∈ natDigits m, ∃ k, k < 10 ∧ c = digitChar k :=
  (natDigitsGo_spec (m + 1) m (Nat.lt_succ_self m)).2.1

theorem digitsUVal?_natDigits (m : Nat) :
    digitsUVal? (natDigits m) = some (m, (natDigits m).length) := by
  obtain ⟨hne, hdig, hval⟩ := natDigitsGo_spec (m + 1) m (Nat.lt_succ_self m)
  rw [show natDigitsGo (m + 1) m = natDigits m from rfl] at hne hdig hval
  cases hl : natDigits m with
  | nil => exact absurd hl hne
  | cons c rest =>
    rw [hl] at hdig hval
    obtain ⟨k, hk, hck⟩ := hdig c (List.mem_cons_self c rest)
    have : digitsUVal? (c :: rest) =
        if c.isDigit then digitsUVal?.digitsUGo (c.toNat - 48) 1 rest else none := rfl
    rw [this, if_pos (by rw [hck]; exact (digitChar_props hk).1)]
    rw [digitsUGo_digits rest _ _ (fun x hx => by
      obtain ⟨j, hj, hxj⟩ := hdig x (List.mem_cons_of_mem c hx)
      exact ⟨by rw [hxj]; exact (digitChar_props hj).1,
        by rw [hxj]; exact (digitChar_props hj).2.2.2.2.2.2.2.1⟩)]
    rw [List.foldl_cons] at hval
    rw [show (0 : Nat) * 10 + (c.toNat - 48) = c.toNat - 48 from by omega] at hval
    rw [hval, List.length_cons]
    congr 2
    omega

theorem splitFirst_no_sep {sep : Char} : ∀ {l : List Char}, sep ∉ l →
    splitFirst sep l = (l, none)
  | [], _ => rfl
  | c :: rest, h => by
    rw [splitFirst]
    rw [if_neg (fun hc => h (by rw [← hc]; exact List.mem_cons_self c rest))]
    rw [splitFirst_no_sep (fun hm => h (List.mem_cons_of_mem c hm))]

theorem splitExp_no_e : ∀ {l : List Char}, (∀ c ∈ l, c ≠ 'e' ∧ c ≠ 'E') →
    splitExp l = (l, none)
  | [], _ => rfl
  | c :: rest, h => by
    rw [splitExp]
    rw [if_neg (by
      have := h c (List.mem_cons_self c rest)
      simp [this.1, this.2])]
    rw [splitExp_no_e (fun x hx => h x (List.mem_cons_of_mem c hx))]

theorem natDigits_no_space (m : Nat) : ∀ c ∈ natDigits m, isPySpace c = false := by
  intro c hc
  obtain ⟨k, hk, rfl⟩ := natDigits_chars m c hc
  exact (digitChar_props hk).2.1

theorem map_self_of {f : Char → Char} : ∀ {l : List Char},
    (∀ c ∈ l, f c = c) → l.map f = l
  | [], _ => rfl
  | c :: rest, h => by
    rw [List.map_cons, h c (List.mem_cons_self c rest),
      map_self_of (fun x hx => h x (List.mem_cons_of_mem c hx))]

theorem natDigits_lower (m : Nat) : (natDigits m).map Char.toLower = natDigits m := by
  refine map_self_of ?_
  intro c hc
  obtain ⟨k, hk, rfl⟩ := natDigits_chars m c hc
  exact (digitChar_props hk).2.2.2.2.2.2.2.2.1

theorem floatMantissa?_natDigits (m : Nat) :
    floatMantissa? (natDigits m) = some (m, 0) := by
  rw [floatMantissa?]
  rw [splitFirst_no_sep (fun hmem => by
    obtain ⟨k, hk, hck⟩ := natDigits_chars m '.' hmem
    exact (digitChar_props hk).2.2.2.2.1 hck.symm)]
  show Option.map (fun p => (p.1, 0)) (digitsUVal? (natDigits m)) = some (m, 0)
  rw [digitsUVal?_natDigits]
  rfl

theorem floatTruncMag_zero (m : Nat) : floatTruncMag m 0 0 = m := by
  rw [floatTruncMag, if_pos (by omega)]
  simp

theorem pyFloatBody_natDigits (sign : Int) (m : Nat) :
    pyFloatBody sign (natDigits m) = some (sign * (m : Int)) := by
  obtain ⟨c, rest, hl⟩ : ∃ c rest, natDigits m = c :: rest := by
    cases h : natDigits m with
    | nil => exact absurd h (natDigits_ne_nil m)
    | cons a b => exact ⟨a, b, rfl⟩
  obtain ⟨k, hk, hck⟩ := natDigits_chars m c (by rw [hl]; exact List.mem_cons_self c rest)
  simp only [pyFloatBody]
  rw [natDigits_lower]
  rw [if_neg (by
    simp only [Bool.or_eq_true, decide_eq_true_eq]
    rw [hl]
    rintro ((h | h) | h) <;> rw [List.cons.injEq] at h
    · exact (digitChar_props hk).2.2.2.2.2.2.2.2.2.2.2.1 (hck ▸ h.1)
    · exact (digitChar_props hk).2.2.2.2.2.2.2.2.2.2.2.1 (hck ▸ h.1)
    · exact (digitChar_props hk).2.2.2.2.2.2.2.2.2.2.2.2.1 (hck ▸ h.1))]
  rw [splitExp_no_e (fun x hx => by
    obtain ⟨j, hj, hxj⟩ := natDigits_chars m x hx
    exact ⟨by rw [hxj]; exact (digitChar_props hj).2.2.2.2.2.1,
      by rw [hxj]; exact (digitChar_props hj).2.2.2.2.2.2.1⟩)]
  show (match floatMantissa? (natDigits m) with
    | none => none
    | some (mv, f) => some (sign * (floatTruncMag mv f 0 : Int))) =
      some (sign * (m : Int))
  rw [floatMantissa?_natDigits]
  show some (sign * (floatTruncMag m 0 0 : Int)) = some (sign * (m : Int))
  rw [floatTruncMag_zero]

theorem pyFloatSigned_neg (l : List Char) :
    pyFloatSigned ('-' :: l) = pyFloatBody (-1) l := by
  rw [pyFloatSigned, if_neg (by decide), if_pos rfl]

theorem pyFloatSigned_digit (c : Char) (rest : List Char) (h1 : c ≠ '+') (h2 : c ≠ '-') :
    pyFloatSigned (c :: rest) = pyFloatBody 1 (c :: rest) := by
  rw [pyFloatSigned, if_neg h1, if_neg h2]

/-- `int(float(str(d)))` gives back `d` (exact in the embedding; the IEEE
detour of the source only differs beyond 2^53). -/
theorem pyFloatTrunc_pyIntStr (d : Int) : pyFloatTrunc? (pyIntStr d) = some d := by
  by_cases hd : d < 0
  · have hstrip : pyStripCh (pyIntStr d).data = '-' :: natDigits d.natAbs := by
      rw [show (pyIntStr d).data = '-' :: natDigits d.natAbs from by
        rw [pyIntStr, if_pos hd]]
      refine pyStripCh_noop_of_all ?_
      intro c hc
      rcases List.mem_cons.mp hc with h | h
      · rw [h]; rfl
      · exact natDigits_no_space d.natAbs c h
    rw [pyFloatTrunc?, hstrip, pyFloatSigned_neg, pyFloatBody_natDigits]
    congr 1
    omega
  · have hstrip : pyStripCh (pyIntStr d).data = natDigits d.natAbs := by
      rw [show (pyIntStr d).data = natDigits d.natAbs from by rw [pyIntStr, if_neg hd]]
      exact pyStripCh_noop_of_all (natDigits_no_space d.natAbs)
    obtain ⟨c, rest, hl⟩ : ∃ c rest, natDigits d.natAbs = c :: rest := by
      cases h : natDigits d.natAbs with
      | nil => exact absurd h (natDigits_ne_nil d.natAbs)
      | cons a b => exact ⟨a, b, rfl⟩
    obtain ⟨k, hk, hck⟩ := natDigits_chars d.natAbs c
      (by rw [hl]; exact List.mem_cons_self c rest)
    rw [pyFloatTrunc?, hstrip, hl]
    rw [pyFloatSigned_digit c rest
      (by rw [hck]; exact (digitChar_props hk).2.2.2.2.2.2.2.2.2.1)
      (by rw [hck]; exact (digitChar_props hk).2.2.2.2.2.2.2.2.2.2.1)]
    rw [← hl, pyFloatBody_natDigits]
    rw [one_mul]
    congr 1
    omega

/-! ### Lemmas toward C7: invariants of the parsed entries -/

theorem isPre_append_self : ∀ (p x : List Char), isPre p (p ++ x) = true
  | [], _ => rfl
  | c :: p', x => by
    rw [List.cons_append]
    rw [show isPre (c :: p') (c :: (p' ++ x)) =
      (decide (c = c) && isPre p' (p' ++ x)) from rfl]
    rw [isPre_append_self p' x]
    simp

theorem isPre_hash_of_extinf {l : List Char} (h : isPre "#EXTINF:".data l = true) :
    isPre ['#'] l = true := by
  cases l with
  | nil => exact absurd h (by decide)
  | cons c rest =>
    rw [show isPre "#EXTINF:".data (c :: rest) =
      (decide ('#' = c) && isPre "EXTINF:".data rest) from rfl] at h
    rw [Bool.and_eq_true] at h
    rw [show isPre ['#'] (c :: rest) = (decide ('#' = c) && isPre [] rest) from rfl]
    rw [h.1]
    rfl

theorem strne_data {s : String} (h : s ≠ "") : s.data ≠ [] := by
  intro h0
  apply h
  cases s with
  | mk d =>
    rw [show (String.mk d).data = d from rfl] at h0
    rw [h0]

theorem pyStripCh_idem (l : List Char) : pyStripCh (pyStripCh l) = pyStripCh l :=
  pyStripCh_noop (fun _ hc => pyStripCh_head hc) (fun _ hc => pyStripCh_last hc)

theorem pyIntStr_chars (d : Int) :
    ∀ c ∈ (pyIntStr d).data, c = '-' ∨ ∃ k, k < 10 ∧ c = digitChar k := by
  intro c hc
  rw [pyIntStr] at hc
  split at hc
  · rw [show (String.mk ('-' :: natDigits d.natAbs)).data =
      '-' :: natDigits d.natAbs from rfl] at hc
    rcases List.mem_cons.mp hc with h | h
    · exact Or.inl h
    · exact Or.inr (natDigits_chars _ c h)
  · exact Or.inr (natDigits_chars _ c hc)

theorem splitFirst_snd_subset (sep : Char) : ∀ {l r : List Char},
    (splitFirst sep l).2 = some r → ∀ c ∈ r, c ∈ l
  | [], r, h => by simp [splitFirst] at h
  | c0 :: rest, r, h => by
    rw [splitFirst] at h
    split at h
    · rw [show (([] : List Char), some rest).2 = some rest from rfl] at h
      injection h with h
      subst h
      exact fun c hc => List.mem_cons_of_mem c0 hc
    · cases hsp : splitFirst sep rest with
      | mk a b =>
        rw [hsp] at h
        rw [show ((match ((a, b) : List Char × Option (List Char)) with
          | (a, b) => (c0 :: a, b)) : List Char × Option (List Char)).2 = b from rfl] at h
        intro c hc
        refine List.mem_cons_of_mem c0 (splitFirst_snd_subset sep (l := rest) ?_ c hc)
        rw [hsp]
        exact h

theorem splitFirst_append_sep {sep : Char} : ∀ {a : List Char} (t : List Char), sep ∉ a →
    splitFirst sep (a ++ sep :: t) = (a, some t)
  | [], t, _ => by rw [List.nil_append, splitFirst, if_pos rfl]
  | c :: a', t, h => by
    rw [List.cons_append, splitFirst,
      if_neg (fun hc => h (by rw [← hc]; exact List.mem_cons_self c a'))]
    rw [splitFirst_append_sep t (fun hm => h (List.mem_cons_of_mem c hm))]

theorem normpathCh_ne_nil (p : List Char) : normpathCh p ≠ [] := by
  rcases normpathCh_shape p with h | h | h | ⟨s, cs, _, hne, hok, _, _, h⟩ <;> rw [h]
  · simp
  · simp
  · simp
  · obtain ⟨c1, cs', rfl⟩ : ∃ c1 cs', cs = c1 :: cs' := by
      cases cs with
      | nil => exact absurd rfl hne
      | cons a b => exact ⟨a, b, rfl⟩
    obtain ⟨hne1, _, _⟩ := hok c1 (List.mem_cons_self _ _)
    obtain ⟨x, t, rfl⟩ : ∃ x t, c1 = x :: t := by
      cases c1 with
      | nil => exact absurd rfl hne1
      | cons a b => exact ⟨a, b, rfl⟩
    intro hc
    rcases List.append_eq_nil.mp hc with ⟨_, h2⟩
    have hh := joinChar_head '/' x (x :: t) cs' rfl
    rw [h2] at hh
    simp at hh

theorem normalize_path_data_ne {s : String} (hs : s.data ≠ []) :
    (normalize_path s).data ≠ [] := by
  rw [normalize_path]
  split
  · exact hs
  · exact normpathCh_ne_nil s.data

/-- Unfolding of `M3UParser.parse` steps: a skipped line. -/
theorem m3uLines_skip (l : List Char) (rest : List (List Char))
    (hcond : ((pyStripCh l).isEmpty ||
      isPre ['#'] (pyStripCh l) && !isPre "#EXTINF:".data (pyStripCh l)) = true) :
    m3uLines (l :: rest) = m3uLines rest := by
  rw [m3uLines.eq_2, if_pos hcond]

/-- Unfolding of `M3UParser.parse` steps: a plain location line. -/
theorem m3uLines_plain (l : List Char) (rest : List (List Char))
    (hcond : ¬((pyStripCh l).isEmpty ||
      isPre ['#'] (pyStripCh l) && !isPre "#EXTINF:".data (pyStripCh l)) = true)
    (hnext : ¬isPre "#EXTINF:".data (pyStripCh l) = true) :
    m3uLines (l :: rest) =
      { location := normalize_path ⟨pyStripCh l⟩, title := none,
        duration := none } :: m3uLines rest := by
  rw [m3uLines.eq_2, if_neg hcond, if_neg hnext]

/-- Unfolding of `M3UParser.parse` steps: a final `#EXTINF:` line. -/
theorem m3uLines_extinf_nil (l : List Char)
    (hcond : ¬((pyStripCh l).isEmpty ||
      isPre ['#'] (pyStripCh l) && !isPre "#EXTINF:".data (pyStripCh l)) = true)
    (hext : isPre "#EXTINF:".data (pyStripCh l) = true) :
    m3uLines [l] = [] := by
  rw [m3uLines.eq_2, if_neg hcond, if_pos hext]

/-- Unfolding of `M3UParser.parse` steps: an `#EXTINF:` line and its
follow-up line. -/
theorem m3uLines_extinf_cons (l l2 : List Char) (rest2 : List (List Char))
    (hcond : ¬((pyStripCh l).isEmpty ||
      isPre ['#'] (pyStripCh l) && !isPre "#EXTINF:".data (pyStripCh l)) = true)
    (hext : isPre "#EXTINF:".data (pyStripCh l) = true) :
    m3uLines (l :: l2 :: rest2) =
      if (!(pyStripCh l2).isEmpty && !isPre ['#'] (pyStripCh l2)) = true then
        { location := normalize_path ⟨pyStripCh l2⟩,
          title := ((splitFirst ',' ((pyStripCh l).drop 8)).2.map
            fun t => (⟨pyStripCh t⟩ : String)),
          duration := pyFloatTrunc? ⟨(splitFirst ',' ((pyStripCh l).drop 8)).1⟩ } ::
          m3uLines rest2
      else m3uLines rest2 := by
  rw [m3uLines.eq_2, if_neg hcond, if_pos hext]

/-- An entry as `M3UParser.parse` constructs it satisfies the parse
invariants. -/
theorem parsed_entry_inv (line2 : List Char) (T : Option String) (D : Option Int)
    (hl : line2 ≠ []) (hlb : ∀ c ∈ line2, isLineBreak c = false)
    (hT : ∀ t, T = some t → pyStrip t = t ∧ ∀ c ∈ t.data, isLineBreak c = false) :
    m3uParsedInv { location := normalize_path ⟨line2⟩, title := T, duration := D } := by
  refine ⟨?_, normalize_path_idem ⟨line2⟩, ?_, hT, rfl, rfl⟩
  · intro h0
    exact normalize_path_data_ne (s := ⟨line2⟩) hl (congrArg String.data h0)
  · intro c hc
    rcases normalize_path_chars hc with h | h | h
    · exact hlb c h
    · rw [h]; rfl
    · rw [h]; rfl

/-- Every entry `M3UParser.parse` emits satisfies the parse invariants. -/
theorem m3uLines_inv : ∀ (lines : List (List Char)),
    (∀ l ∈ lines, ∀ c ∈ l, isLineBreak c = false) →
    ∀ e ∈ m3uLines lines, m3uParsedInv e
  | [], _, e, he => absurd he (List.not_mem_nil e)
  | l :: rest, h, e, he => by
    by_cases hskip : ((pyStripCh l).isEmpty ||
        isPre ['#'] (pyStripCh l) && !isPre "#EXTINF:".data (pyStripCh l)) = true
    · rw [m3uLines_skip l rest hskip] at he
      exact m3uLines_inv rest (fun x hx => h x (List.mem_cons_of_mem l hx)) e he
    · by_cases hext : isPre "#EXTINF:".data (pyStripCh l) = true
      · cases rest with
        | nil =>
          rw [m3uLines_extinf_nil l hskip hext] at he
          exact absurd he (List.not_mem_nil e)
        | cons l2 rest2 =>
          rw [m3uLines_extinf_cons l l2 rest2 hskip hext] at he
          have hrest2 : ∀ x ∈ rest2, ∀ c ∈ x, isLineBreak c = false := fun x hx =>
            h x (List.mem_cons_of_mem l (List.mem_cons_of_mem l2 hx))
          split at he
          · rename_i hline2
            rcases List.mem_cons.mp he with he | he
            · subst he
              rw [Bool.and_eq_true, Bool.not_eq_true', Bool.not_eq_true'] at hline2
              refine parsed_entry_inv _ _ _ ?_ ?_ ?_
              · intro h0
                rw [h0] at hline2
                simp at hline2
              · intro c hc
                exact h l2 (List.mem_cons_of_mem l (List.mem_cons_self l2 rest2)) c
                  (pyStripCh_subset hc)
              · intro t ht
                rcases hsp : (splitFirst ',' ((pyStripCh l).drop 8)).2 with _ | tp
                · rw [hsp] at ht
                  simp at ht
                · rw [hsp] at ht
                  rw [show (some tp).map (fun t => (⟨pyStripCh t⟩ : String)) =
                    some ⟨pyStripCh tp⟩ from rfl] at ht
                  injection ht with ht
                  subst ht
                  constructor
                  · rw [pyStrip]
                    rw [show (String.mk (pyStripCh tp)).data = pyStripCh tp from rfl]
                    rw [pyStripCh_idem]
                  · intro c hc
                    rw [show (String.mk (pyStripCh tp)).data = pyStripCh tp from rfl] at hc
                    have h1 : c ∈ tp := pyStripCh_subset hc
                    have h2 : c ∈ (pyStripCh l).drop 8 := splitFirst_snd_subset ',' hsp c h1
                    have h3 : c ∈ pyStripCh l := List.mem_of_mem_drop h2
                    exact h l (List.mem_cons_self l _) c (pyStripCh_subset h3)
            · exact m3uLines_inv rest2 hrest2 e he
          · exact m3uLines_inv rest2 hrest2 e he
      · rw [m3uLines_plain l rest hskip hext] at he
        rcases List.mem_cons.mp he with he | he
        · subst he
          have hne : pyStripCh l ≠ [] := by
            intro h0
            apply hskip
            rw [h0]
            rfl
          refine parsed_entry_inv _ _ _ hne ?_ (fun t ht => by simp at ht)
          intro c hc
          exact h l (List.mem_cons_self l _) c (pyStripCh_subset hc)
        · exact m3uLines_inv rest (fun x hx => h x (List.mem_cons_of_mem l hx)) e he

/-- Every entry of `m3uParse` satisfies the parse invariants. -/
theorem m3uParse_inv (content : String) : ∀ e ∈ m3uParse content, m3uParsedInv e :=
  m3uLines_inv (splitLinesCh content.data)
    (splitLinesGo_lbfree content.data [] (by simp))

/-! ### Lemmas toward C7: the serialized lines parse back -/

theorem isEmpty_false_of_ne {l : List Char} (h : l ≠ []) : l.isEmpty = false := by
  cases l with
  | nil => exact absurd rfl h
  | cons c t => rfl

theorem extinfLine_ne_nil (e : PlaylistEntry) : extinfLine e ≠ [] := by
  rw [extinfLine]
  rw [show ("#EXTINF:".data : List Char) = '#' :: "EXTINF:".data from rfl]
  rw [List.cons_append, List.cons_append]
  simp

theorem extinfLine_lbfree (e : PlaylistEntry)
    (ht : ∀ t, e.title = some t → ∀ c ∈ t.data, isLineBreak c = false) :
    ∀ c ∈ extinfLine e, isLineBreak c = false := by
  intro c hc
  rw [extinfLine] at hc
  rcases List.mem_append.mp hc with h | h
  · rcases List.mem_append.mp h with h | h
    · exact (by decide : ∀ x ∈ "#EXTINF:".data, isLineBreak x = false) c h
    · rcases hdm : e.duration with _ | d
      · rw [hdm] at h
        exact (by decide : ∀ x ∈ "-1".data, isLineBreak x = false) c h
      · rw [hdm] at h
        rcases pyIntStr_chars d c h with h | ⟨k, hk, rfl⟩
        · rw [h]; rfl
        · exact (digitChar_props hk).2.2.1
  · rcases List.mem_cons.mp h with h | h
    · rw [h]; rfl
    · cases htt : e.title with
      | none =>
        rw [htt] at h
        exact absurd h (List.not_mem_nil c)
      | some t =>
        rw [htt] at h
        exact ht t htt c h

theorem extinfLine_strip (e : PlaylistEntry)
    (ht : ∀ t, e.title = some t → pyStrip t = t) :
    pyStripCh (extinfLine e) = extinfLine e := by
  refine pyStripCh_noop ?_ ?_
  · intro c hc
    rw [extinfLine] at hc
    rw [show ("#EXTINF:".data : List Char) = '#' :: "EXTINF:".data from rfl] at hc
    rw [List.cons_append, List.cons_append, List.head?_cons] at hc
    injection hc with hc
    rw [← hc]
    rfl
  · intro c hc
    rw [extinfLine] at hc
    rw [List.getLast?_append_of_ne_nil _ (by simp)] at hc
    cases hT : (e.title.getD "").data with
    | nil =>
      rw [hT] at hc
      rw [show ([','] : List Char).getLast? = some ',' from rfl] at hc
      injection hc with hc
      rw [← hc]
      rfl
    | cons t0 ts =>
      rw [hT, List.getLast?_cons_cons] at hc
      cases htt : e.title with
      | none =>
        rw [htt] at hT
        exact absurd hT (by simp)
      | some t =>
        rw [htt] at hT
        rw [show ((some t).getD "").data = t.data from rfl] at hT
        have hdata : pyStripCh t.data = t.data := congrArg String.data (ht t htt)
        refine pyStripCh_last (l := t.data) ?_
        rw [hdata, hT]
        exact hc

theorem playlistEntry_ext (a b : PlaylistEntry) (h1 : a.location = b.location)
    (h2 : a.title = b.title) (h3 : a.duration = b.duration) (h4 : a.artist = b.artist)
    (h5 : a.album = b.album) : a = b := by
  cases a
  cases b
  simp only [] at h1 h2 h3 h4 h5
  rw [h1, h2, h3, h4, h5]

/-- Parsing the emitted lines of well-behaved entries gives the entries
back. -/
theorem m3uLines_entry_align : ∀ (entries : List PlaylistEntry),
    (∀ e ∈ entries, m3uGoodEntry e ∧ m3uParsedInv e) →
    m3uLines ((entries.map m3uEntryLines).flatten) = entries
  | [], _ => rfl
  | e :: rest, h => by
    obtain ⟨⟨ghash, gstrip, giso⟩, ine, iidem, ilb, ititle, iart, ialb⟩ :=
      h e (List.mem_cons_self e rest)
    have hrec := m3uLines_entry_align rest (fun x hx => h x (List.mem_cons_of_mem e hx))
    have hsd : pyStripCh e.location.data = e.location.data := congrArg String.data gstrip
    have hld : e.location.data ≠ [] := strne_data ine
    have hskipl : ¬((pyStripCh e.location.data).isEmpty ||
        isPre ['#'] (pyStripCh e.location.data) &&
          !isPre "#EXTINF:".data (pyStripCh e.location.data)) = true := by
      rw [hsd, isEmpty_false_of_ne hld, ghash]
      simp
    have hnextl : ¬isPre "#EXTINF:".data (pyStripCh e.location.data) = true := by
      rw [hsd]
      intro hx
      rw [isPre_hash_of_extinf hx] at ghash
      simp at ghash
    rw [List.map_cons, List.flatten_cons, m3uEntryLines]
    cases hd : e.duration with
    | none =>
      have ht : e.title = none := by
        cases htt : e.title with
        | none => rfl
        | some t => rw [htt, hd] at giso; simp at giso
      rw [ht]
      rw [show (if (strTruthy none || (none : Option Int).isSome) = true then
        [extinfLine e] else []) = [] from rfl]
      rw [List.nil_append, List.singleton_append]
      rw [m3uLines_plain _ _ hskipl hnextl, hrec]
      congr 1
      refine playlistEntry_ext _ _ ?_ ?_ ?_ ?_ ?_
      · show normalize_path ⟨pyStripCh e.location.data⟩ = e.location
        rw [hsd]
        exact iidem
      · exact ht.symm
      · exact hd.symm
      · exact iart.symm
      · exact ialb.symm
    | some d =>
      obtain ⟨t, ht⟩ : ∃ t, e.title = some t := by
        cases htt : e.title with
        | none => rw [htt, hd] at giso; simp at giso
        | some t => exact ⟨t, rfl⟩
      obtain ⟨itstrip, itlb⟩ := ititle t ht
      have hitd : pyStripCh t.data = t.data := congrArg String.data itstrip
      rw [ht]
      rw [show (if (strTruthy (some t) || (some d : Option Int).isSome) = true then
        [extinfLine e] else []) = [extinfLine e] from by
        rw [show ((some d : Option Int)).isSome = true from rfl]
        simp]
      rw [List.singleton_append, List.cons_append, List.singleton_append]
      have hstripext : pyStripCh (extinfLine e) = extinfLine e :=
        extinfLine_strip e (fun t' ht' => (ititle t' ht').1)
      have hshape : extinfLine e = "#EXTINF:".data ++ ((pyIntStr d).data ++ ',' :: t.data) := by
        rw [extinfLine, hd, ht]
        rw [List.append_assoc]
        rfl
      have hextpre : isPre "#EXTINF:".data (pyStripCh (extinfLine e)) = true := by
        rw [hstripext, hshape]
        exact isPre_append_self _ _
      have hskipx : ¬((pyStripCh (extinfLine e)).isEmpty ||
          isPre ['#'] (pyStripCh (extinfLine e)) &&
            !isPre "#EXTINF:".data (pyStripCh (extinfLine e))) = true := by
      
        rw [hextpre]
        rw [hstripext]
        rw [isEmpty_false_of_ne (extinfLine_ne_nil e)]
        simp
      have hlocok : (!(pyStripCh e.location.data).isEmpty &&
          !isPre ['#'] (pyStripCh e.location.data)) = true := by
        rw [hsd, isEmpty_false_of_ne hld, ghash]
        rfl
      rw [m3uLines_extinf_cons _ _ _ hskipx hextpre]
      rw [if_pos hlocok]
      rw [hrec]
      congr 1
      have hdrop : (pyStripCh (extinfLine e)).drop 8 = (pyIntStr d).data ++ ',' :: t.data := by
        rw [hstripext, hshape]
        rw [show (8 : Nat) = "#EXTINF:".data.length from rfl]
        exact List.drop_left _ _
      have hsplit : splitFirst ',' ((pyStripCh (extinfLine e)).drop 8) =
          ((pyIntStr d).data, some t.data) := by
        rw [hdrop]
        refine splitFirst_append_sep _ ?_
        intro hmem
        rcases pyIntStr_chars d ',' hmem with h | ⟨k, hk, hck⟩
        · exact absurd h.symm (by decide)
        · exact (digitChar_props hk).2.2.2.1 hck.symm
      rw [hsplit]
      refine playlistEntry_ext _ _ ?_ ?_ ?_ ?_ ?_
      · show normalize_path ⟨pyStripCh e.location.data⟩ = e.location
        rw [hsd]
        exact iidem
      · show some (⟨pyStripCh t.data⟩ : String) = e.title
        rw [hitd, ht]
      · show pyFloatTrunc? ⟨(pyIntStr d).data⟩ = e.duration
        rw [hd]
        exact pyFloatTrunc_pyIntStr d
      · exact iart.symm
      · exact ialb.symm

/-! ### C7: assembling the round trip -/

theorem splitLinesCh_join : ∀ {ls : List (List Char)},
    (∀ l ∈ ls, (∀ c ∈ l, isLineBreak c = false) ∧ l ≠ []) →
    splitLinesCh (joinChar '\n' ls) = ls
  | [], _ => rfl
  | [a], h => by
    rw [joinChar.eq_2, splitLinesCh, slg_final [] (h a (List.mem_singleton_self a)).1]
    rw [List.reverse_nil, List.nil_append]
    rw [isEmpty_false_of_ne (h a (List.mem_singleton_self a)).2]
    simp
  | a :: b :: rest, h => by
    rw [joinChar.eq_3 _ _ _ (by simp)]
    rw [splitLinesCh, slg_append_nl (joinChar '\n' (b :: rest)) []
      (h a (List.mem_cons_self a _)).1]
    rw [List.reverse_nil, List.nil_append]
    rw [show splitLinesGo [] (joinChar '\n' (b :: rest)) =
      splitLinesCh (joinChar '\n' (b :: rest)) from rfl]
    rw [splitLinesCh_join (fun l hl => h l (List.mem_cons_of_mem a hl))]

theorem m3uLines_header (tl : List (List Char)) :
    m3uLines ("#EXTM3U".data :: tl) = m3uLines tl :=
  m3uLines_skip _ tl (by decide)

theorem m3uLines_empty (tl : List (List Char)) :
    m3uLines ([] :: tl) = m3uLines tl :=
  m3uLines_skip _ tl (by decide)

theorem entries_nil_of_flatten_nil {entries : List PlaylistEntry}
    (h : (entries.map m3uEntryLines).flatten = []) : entries = [] := by
  cases entries with
  | nil => rfl
  | cons e rest =>
    rw [List.map_cons, List.flatten_cons] at h
    rcases List.append_eq_nil.mp h with ⟨h1, _⟩
    rw [m3uEntryLines] at h1
    rcases List.append_eq_nil.mp h1 with ⟨_, h2⟩
    simp at h2

theorem m3uEntryLines_facts (e : PlaylistEntry) (hinv : m3uParsedInv e) :
    ∀ l ∈ m3uEntryLines e, (∀ c ∈ l, isLineBreak c = false) ∧ l ≠ [] := by
  obtain ⟨ine, _, ilb, ititle, _, _⟩ := hinv
  intro l hl
  rw [m3uEntryLines] at hl
  rcases List.mem_append.mp hl with h | h
  · split at h
    · rw [List.mem_singleton] at h
      subst h
      exact ⟨extinfLine_lbfree e (fun t ht => (ititle t ht).2), extinfLine_ne_nil e⟩
    · exact absurd h (List.not_mem_nil l)
  · rw [List.mem_singleton] at h
    subst h
    exact ⟨ilb, strne_data ine⟩

theorem m3uSerialize_data (entries : List PlaylistEntry) (orig : Option String) :
    (m3uSerialize entries orig).data =
      joinChar '\n' ((if (!strTruthy orig ||
          pyStartsWith (pyStrip (orig.getD "")) "#EXTM3U") = true then
        ["#EXTM3U\n".data] else []) ++ (entries.map m3uEntryLines).flatten) := rfl

/-- Claim C7 (corrected): for an M3U document whose parsed entries have a
location that does not start with `#`, carry no surrounding whitespace, and
have title and duration present together, parsing the serialization (with the
original text supplied) reproduces the parsed entries exactly. The original
unconditional claim is refuted by `claim_C7_counterexample`. -/
theorem claim_C7 (text : String)
    (hgood : ∀ e ∈ m3uParse text, m3uGoodEntry e) :
    m3uParse (m3uSerialize (m3uParse text) (some text)) = m3uParse text := by
  have hinv := m3uParse_inv text
  have halign := m3uLines_entry_align (m3uParse text) (fun e he => ⟨hgood e he, hinv e he⟩)
  have hbody : ∀ l ∈ ((m3uParse text).map m3uEntryLines).flatten,
      (∀ c ∈ l, isLineBreak c = false) ∧ l ≠ [] := by
    intro l hl
    rw [List.mem_flatten] at hl
    obtain ⟨ls, hls, hmem⟩ := hl
    rw [List.mem_map] at hls
    obtain ⟨e, he, rfl⟩ := hls
    exact m3uEntryLines_facts e (hinv e he) l hmem
  show m3uLines (splitLinesCh (m3uSerialize (m3uParse text) (some text)).data) =
    m3uParse text
  rw [m3uSerialize_data]
  by_cases hh : (!strTruthy (some text) ||
      pyStartsWith (pyStrip ((some text).getD "")) "#EXTM3U") = true
  · rw [if_pos hh]
    cases hb : ((m3uParse text).map m3uEntryLines).flatten with
    | nil =>
      rw [entries_nil_of_flatten_nil hb]
      rfl
    | cons b bs =>
      rw [show (["#EXTM3U\n".data] ++ b :: bs : List (List Char)) =
        "#EXTM3U\n".data :: b :: bs from rfl]
      rw [joinChar.eq_3 _ _ _ (by simp)]
      rw [show ("#EXTM3U\n".data : List Char) = "#EXTM3U".data ++ ['\n'] from rfl]
      rw [List.append_assoc]
      rw [show (['\n'] : List Char) ++ '\n' :: joinChar '\n' (b :: bs) =
        '\n' :: ('\n' :: joinChar '\n' (b :: bs)) from rfl]
      rw [splitLinesCh, slg_append_nl _ [] (by decide)]
      rw [List.reverse_nil, List.nil_append]
      rw [slg_cons [] '\n' _ (by decide), if_pos (by decide)]
      rw [List.reverse_nil]
      have hsplit2 : splitLinesGo [] (joinChar '\n' (b :: bs)) = b :: bs := by
        rw [show splitLinesGo [] (joinChar '\n' (b :: bs)) =
          splitLinesCh (joinChar '\n' (b :: bs)) from rfl]
        rw [← hb]
        exact splitLinesCh_join hbody
      rw [hsplit2]
      rw [m3uLines_header, m3uLines_empty]
      rw [← hb]
      exact halign
  · rw [if_neg hh, List.nil_append]
    rw [splitLinesCh_join hbody]
    exact halign

/-- Witness for C7 on a concrete well-behaved document. -/
theorem claim_C7_witness :
    (∀ e ∈ m3uParse "#EXTM3U\n#EXTINF:180,Song A - x\na.mp3\nplain.mp3",
      m3uGoodEntry e) ∧
    m3uParse (m3uSerialize
        (m3uParse "#EXTM3U\n#EXTINF:180,Song A - x\na.mp3\nplain.mp3")
        (some "#EXTM3U\n#EXTINF:180,Song A - x\na.mp3\nplain.mp3")) =
      m3uParse "#EXTM3U\n#EXTINF:180,Song A - x\na.mp3\nplain.mp3" :=
  ⟨by decide, claim_C7 "#EXTM3U\n#EXTINF:180,Song A - x\na.mp3\nplain.mp3" (by decide)⟩

/-- Counterexamples to the unconditional C7: a title without duration comes
back with duration `-1`; a location normalising to a `#`-prefixed string is
dropped on reparse; a location keeping interior whitespace after
normalisation is stripped on reparse. -/
theorem claim_C7_counterexample :
    (m3uParse (m3uSerialize (m3uParse "#EXTINF:abc,Song\nx.mp3")
        (some "#EXTINF:abc,Song\nx.mp3")) ≠ m3uParse "#EXTINF:abc,Song\nx.mp3" ∧
      m3uParse "#EXTINF:abc,Song\nx.mp3" =
        [{ location := "x.mp3", title := some "Song", duration := none }] ∧
      m3uParse (m3uSerialize (m3uParse "#EXTINF:abc,Song\nx.mp3")
          (some "#EXTINF:abc,Song\nx.mp3")) =
        [{ location := "x.mp3", title := some "Song", duration := some (-1) }]) ∧
    (m3uParse (m3uSerialize (m3uParse "./#a") (some "./#a")) ≠ m3uParse "./#a" ∧
      m3uParse "./#a" = [{ location := "#a" }] ∧
      m3uParse (m3uSerialize (m3uParse "./#a") (some "./#a")) = []) ∧
    (m3uParse (m3uSerialize (m3uParse "x\n./ y") (some "x\n./ y")) ≠
        m3uParse "x\n./ y" ∧
      m3uParse "x\n./ y" = [{ location := "x" }, { location := " y" }] ∧
      m3uParse (m3uSerialize (m3uParse "x\n./ y") (some "x\n./ y")) =
        [{ location := "x" }, { location := "y" }]) := by
  exact ⟨⟨by decide, by decide, by decide⟩, ⟨by decide, by decide, by decide⟩,
    ⟨by decide, by decide, by decide⟩⟩

end AvPlay





